import Mathlib

/-!
Verification of the fits2idia FITS-to-HDF5 converter core (src/main.cc).

Shallow embedding conventions:
* An FP32/FP64 pixel or statistic value is modelled as `FV := Option ℚ`:
  `none` models NaN, `some q` models the finite value `q`.  Infinities do
  not occur in the model; the claims about finite-value arithmetic carry a
  boundedness hypothesis `|v| ≤ FMAX` where the sentinel matters.
* Arithmetic on finite values is modelled exactly over `ℚ` (the claims
  under study are structural: index maps, NaN counting, guards, exact
  mean laws).  For the one claim about accumulation precision a separate
  rounding model `fl`/`fadd` of p-bit binary floating point is used; it is
  clearly named and only used there.
* The cube for one polarization is a function `data : ℕ → FV` together
  with dimensions D (depth), H (height), W (width); flat indexing follows
  the source exactly.
-/

namespace Fits2Idia

/-- A floating-point value: `none` is NaN, `some q` a finite value. -/
abbrev FV : Type := Option ℚ

/-- Largest finite FP32 value, (2 − 2^(−23))·2^127 = (2^24 − 1)·2^104,
written as an explicit numeral.  The source initializes min accumulators
to it and max accumulators to its negation (numeric_limits of float,
max). -/
def FMAX : ℚ := 340282346638528859811704183484516925440

/-- Flat index into the standard cube: src/main.cc line 256,
sourceIndex = k + width * j + (height * width) * i. -/
def srcIndex (W H : ℕ) (i j k : ℕ) : ℕ := k + W * j + (H * W) * i

/-- Flat index into the rotated cube: src/main.cc line 257,
destIndex = i + depth * j + (height * depth) * k. -/
def destIndex (D H : ℕ) (i j k : ℕ) : ℕ := i + D * j + (H * D) * k

/-- Accumulator of the per-slice statistics loop (src/main.cc 249-252):
minVal, maxVal, sum, nanCount. -/
structure SliceAcc where
  minVal : ℚ
  maxVal : ℚ
  sum : ℚ
  nanCount : ℤ
deriving DecidableEq

/-- One iteration of the statistics accumulation (src/main.cc 265-271):
a finite value updates min, max and sum; a NaN increments nanCount. -/
def statStep (acc : SliceAcc) (v : FV) : SliceAcc :=
  match v with
  | some x => ⟨min acc.minVal x, max acc.maxVal x, acc.sum + x, acc.nanCount⟩
  | none => ⟨acc.minVal, acc.maxVal, acc.sum, acc.nanCount + 1⟩

/-- Initial accumulator (src/main.cc 249-252): min = FLT_MAX,
max = −FLT_MAX, sum = 0, nanCount = 0. -/
def initAcc : SliceAcc := ⟨FMAX, -FMAX, 0, 0⟩

/-- Statistics reduction over a list of visited values, in source order. -/
def runStats (vals : List FV) : SliceAcc := vals.foldl statStep initAcc

/-- The values of XY slice i of the standard cube, visited in the source
order of the first loop (j outer, k inner; src/main.cc 254-255). -/
def sliceVals (data : ℕ → FV) (W H : ℕ) (i : ℕ) : List FV :=
  (List.range H).flatMap fun j => (List.range W).map fun k => data (srcIndex W H i j k)

/-- The values of the Z profile at spatial pixel (j,k), visited in the
source order of the second loop (src/main.cc 328-330). -/
def profileVals (data : ℕ → FV) (W H D : ℕ) (j k : ℕ) : List FV :=
  (List.range D).map fun i => data (srcIndex W H i j k)

/-- Published statistics record: min, max, mean (FP32, NaN-able) and the
int64 NaN count. -/
structure Pub where
  minV : FV
  maxV : FV
  meanV : FV
  nanC : ℤ
deriving DecidableEq

/-- Float division, used at publication time: the divisor is zero only
when every visited value was NaN, in which case the numerator is the
empty sum 0 and float 0/0 is NaN (`none`).  (A nonzero numerator over a
zero divisor would be an FP32 infinity; that case is unreachable in the
source because a zero count forces a zero sum.) -/
def fdiv (s : ℚ) (c : ℤ) : FV :=
  if c = 0 then none else some (s / (c : ℚ))

/-- Publication of the per-XY-slice statistics (src/main.cc 275-285):
when nanCount ≠ H·W the locals are published and the mean is
sum/(H·W − nanCount); otherwise NaN entries are published. -/
def publishXY (H W : ℕ) (vals : List FV) : Pub :=
  if (runStats vals).nanCount ≠ ((H : ℤ) * W) then
    ⟨some (runStats vals).minVal, some (runStats vals).maxVal,
      fdiv (runStats vals).sum ((H : ℤ) * W - (runStats vals).nanCount),
      (runStats vals).nanCount⟩
  else
    ⟨none, none, none, (runStats vals).nanCount⟩

/-- Publication of the per-Z-profile statistics (src/main.cc 341-351).
NOTE: this is faithful to the source, including the guard
`nanCount != (height * width)` — the loop accumulates over `depth`
values, yet the guard compares the NaN count to `height * width` — and
the mean divisor `depth - nanCount`. -/
def publishZ (H W D : ℕ) (vals : List FV) : Pub :=
  if (runStats vals).nanCount ≠ ((H : ℤ) * W) then
    ⟨some (runStats vals).minVal, some (runStats vals).maxVal,
      fdiv (runStats vals).sum ((D : ℤ) - (runStats vals).nanCount),
      (runStats vals).nanCount⟩
  else
    ⟨none, none, none, (runStats vals).nanCount⟩

/-- C `fmin`: NaN operands are discarded; NaN only if both are NaN. -/
def fmin : FV → FV → FV
  | none, b => b
  | some a, none => some a
  | some a, some b => some (min a b)

/-- C `fmax`: NaN operands are discarded; NaN only if both are NaN. -/
def fmax : FV → FV → FV
  | none, b => b
  | some a, none => some a
  | some a, some b => some (max a b)

/-- Accumulator of the XYZ consolidation loop (src/main.cc 293-296):
xyzSum, xyzNanCount, xyzMin, xyzMax. -/
structure XYZAcc where
  sum : ℚ
  nan : ℤ
  mn : FV
  mx : FV
deriving DecidableEq

/-- One iteration of the XYZ consolidation (src/main.cc 298-307): slices
whose published mean is finite contribute mean·(H·W − nanCount) to the
sum and their extremes through fmin/fmax; NaN counts accumulate
unconditionally. -/
def consStep (H W : ℕ) (pub : ℕ → Pub) (acc : XYZAcc) (i : ℕ) : XYZAcc :=
  let p := pub i
  match p.meanV with
  | some m => ⟨acc.sum + m * ((H : ℚ) * W - (p.nanC : ℚ)), acc.nan + p.nanC,
               fmin acc.mn p.minV, fmax acc.mx p.maxV⟩
  | none => ⟨acc.sum, acc.nan + p.nanC, acc.mn, acc.mx⟩

/-- The XYZ consolidation loop (src/main.cc 291-307), initialized with
xyzSum = 0, xyzNanCount = 0, xyzMin = minXY[s,0], xyzMax = maxXY[s,0]. -/
def consolidateXYZ (D H W : ℕ) (pub : ℕ → Pub) : XYZAcc :=
  (List.range D).foldl (consStep H W pub) ⟨0, 0, (pub 0).minV, (pub 0).maxV⟩

/-- Publication of the XYZ statistics (src/main.cc 309-314).  The mean is
assigned only when the NaN count differs from the cube size; otherwise
the value-initialized 0.0f of the meanValsXYZ vector is what gets
written to the output file (not NaN). -/
def pubXYZ (D H W : ℕ) (pub : ℕ → Pub) : Pub :=
  let acc := consolidateXYZ D H W pub
  ⟨acc.mn, acc.mx,
    if acc.nan ≠ ((D * H * W : ℕ) : ℤ) then
      some (acc.sum / (((D * H * W : ℕ) : ℤ) - acc.nan : ℚ))
    else some 0,
    acc.nan⟩

/-- Iteration order of the fused transpose loop: i (depth) outer, then j
(height), then k (width) (src/main.cc 248-273). -/
def triples (D H W : ℕ) : List (ℕ × ℕ × ℕ) :=
  (List.range D).flatMap fun i =>
    (List.range H).flatMap fun j =>
      (List.range W).map fun k => (i, j, k)

/-- The rotated cube after the fused transpose writes (src/main.cc
260-262): when depth > 1, every visited cell stores
rotatedCube[destIndex] = val, unconditionally (NaN or not).  The backing
store is uninitialized in the source; the model starts from the
everywhere-NaN array, and the claims only address written cells. -/
def rotatedCube (data : ℕ → FV) (D H W : ℕ) : ℕ → FV :=
  if 1 < D then
    (triples D H W).foldl
      (fun f t => Function.update f (destIndex D H t.1 t.2.1 t.2.2)
        (data (srcIndex W H t.1 t.2.1 t.2.2)))
      (fun _ => none)
  else fun _ => none

/-- C cast of a double to int: truncation toward zero. -/
def truncQ (x : ℚ) : ℤ := if 0 ≤ x then ⌊x⌋ else -⌊-x⌋

/-- Histogram bin index (src/main.cc 385 and 390):
min(B − 1, (int)(B · (v − mn) / range)). -/
def binIndex (B : ℕ) (mn range v : ℚ) : ℤ :=
  min ((B : ℤ) - 1) (truncQ ((B : ℚ) * (v - mn) / range))

/-- One pixel of the histogram loop (src/main.cc 383-386): a NaN pixel
is skipped, a finite pixel increments the bin at its bin index. -/
def histStep (B : ℕ) (mn range : ℚ) (h : ℤ → ℤ) (v : FV) : ℤ → ℤ :=
  match v with
  | none => h
  | some x => Function.update h (binIndex B mn range x) (h (binIndex B mn range x) + 1)

/-- The XY histogram row of one slice (src/main.cc 370-395): when the
published slice min or max is NaN or the range is zero the loop is
skipped and the row stays all zeros; otherwise every finite pixel of the
slice is binned against the slice range. -/
def histRowXY (B H W : ℕ) (vals : List FV) : ℤ → ℤ :=
  match (publishXY H W vals).minV, (publishXY H W vals).maxV with
  | some mn, some mx =>
      if mx - mn = 0 then fun _ => 0
      else vals.foldl (histStep B mn (mx - mn)) fun _ => 0
  | _, _ => fun _ => 0

/-- The finite (non-NaN) values of a visited list, in order. -/
def finiteVals (vals : List FV) : List ℚ := vals.filterMap fun v => v

/-- A value representable as a finite FP32 number is bounded by FMAX in
absolute value; NaN carries no bound.  This is the model-side counterpart
of the fact that every entry of the FP32 standardCube is NaN or a finite
float. -/
def FVBounded : FV → Prop
  | none => True
  | some q => -FMAX ≤ q ∧ q ≤ FMAX

instance : DecidablePred FVBounded := fun v =>
  match v with
  | none => Decidable.isTrue trivial
  | some q => inferInstanceAs (Decidable (-FMAX ≤ q ∧ q ≤ FMAX))

/-- Sum of the histogram counts of bins 0..B-1 of a row. -/
def rowSum (B : ℕ) (h : ℤ → ℤ) : ℤ := ∑ b ∈ Finset.range B, h (b : ℤ)

/-! ### Header translator (src/main.cc 128-168) -/

/-- The single-quote character, code 39. -/
def quoteChar : Char := Char.ofNat 39

/-- C `isspace` (default locale): space, tab, newline, vertical tab,
form feed, carriage return. -/
def isSpaceC (c : Char) : Bool :=
  c = ' ' || c = '\t' || c = '\n' || c = Char.ofNat 11 || c = Char.ofNat 12 || c = '\r'

/-- Trim from the start (src/main.cc 19-21). -/
def ltrim (s : List Char) : List Char := s.dropWhile isSpaceC

/-- Trim from the end (src/main.cc 24-26). -/
def rtrim (s : List Char) : List Char := (s.reverse.dropWhile isSpaceC).reverse

/-- Trim from both ends (src/main.cc 29-32). -/
def trim (s : List Char) : List Char := rtrim (ltrim s)

/-- Index of the first occurrence of a character, like string::find. -/
def firstIdxOf (c : Char) (l : List Char) : Option ℕ :=
  l.findIdx? fun x => x = c

/-- Index of the last occurrence of a character, like
string::find_last_of with a one-character set. -/
def lastIdxOf (c : Char) (l : List Char) : Option ℕ :=
  match l.reverse.findIdx? (fun x => x = c) with
  | none => none
  | some r => some (l.length - 1 - r)

/-- Header-record parsing, src/main.cc 144-159.  Records starting with
COMMENT or HISTORY are dropped, as are records without an equals sign.
The name is the text before the first equals sign, trimmed.  The raw
value is substr(eqPos + 1, endPos) where endPos = commentPos - eqPos - 1
in size_t arithmetic: when the last slash sits after the equals sign
this takes the text strictly between them; when it sits before, the
subtraction wraps around 2^64 and substr clamps the count to the rest of
the record (records come from a 255-byte buffer, far below 2^64), so the
whole tail is taken.  The trimmed value then loses one pair of wrapping
single quotes - the source condition find(quote) == 0 and
find_last_of(quote) == length - 1 with length at least 2 says exactly
that the first character and the last character are quotes - and is
re-trimmed. -/
def parseRecord (l : List Char) : Option (List Char × List Char) :=
  if ("COMMENT".toList).isPrefixOf l then none
  else if ("HISTORY".toList).isPrefixOf l then none
  else
    match firstIdxOf '=' l with
    | none => none
    | some eqPos =>
      let name := trim (l.take eqPos)
      let rest := l.drop (eqPos + 1)
      let raw :=
        match lastIdxOf '/' l with
        | some c => if eqPos + 1 ≤ c then rest.take (c - (eqPos + 1)) else rest
        | none => rest
      let v1 := trim raw
      let v2 :=
        if 2 ≤ v1.length ∧ v1.head? = some quoteChar ∧ v1.getLast? = some quoteChar then
          trim (v1.drop 1).dropLast
        else v1
      some (name, v2)

/-- The value field exactly as the claim words it: the text between the
equals sign and the last slash (or the record end), with no proviso that
the slash lie after the equals sign.  Stated positionally: the
characters of l strictly between position eqPos and position c. -/
def claimRawValue (l : List Char) (eqPos : ℕ) : List Char :=
  match lastIdxOf '/' l with
  | some c => (l.take c).drop (eqPos + 1)
  | none => l.drop (eqPos + 1)

/-- Modelled from the amended claim wording: like `parseRecord`, but the
value runs from the equals sign to the last slash only when that slash
occurs after the equals sign, and to the record end otherwise. -/
def claimParse (l : List Char) : Option (List Char × List Char) :=
  if ("COMMENT".toList).isPrefixOf l then none
  else if ("HISTORY".toList).isPrefixOf l then none
  else
    match firstIdxOf '=' l with
    | none => none
    | some eqPos =>
      let name := trim (l.take eqPos)
      let raw :=
        match lastIdxOf '/' l with
        | some c => if eqPos + 1 ≤ c then (l.take c).drop (eqPos + 1) else l.drop (eqPos + 1)
        | none => l.drop (eqPos + 1)
      let v1 := trim raw
      let v2 :=
        if 2 ≤ v1.length ∧ v1.head? = some quoteChar ∧ v1.getLast? = some quoteChar then
          trim (v1.drop 1).dropLast
        else v1
      some (name, v2)

/-- The three converter attributes created on the root group before any
header record is processed (src/main.cc 131-136). -/
def initAttrs : List (List Char × List Char) :=
  [("SCHEMA_VERSION".toList, "0.1".toList),
   ("HDF5_CONVERTER".toList, "hdf_convert".toList),
   ("HDF5_CONVERTER_VERSION".toList, "0.1.4".toList)]

/-- Lookup of an attribute by name; the first binding wins. -/
def lookupA (m : List (List Char × List Char)) (n : List Char) : Option (List Char) :=
  match m with
  | [] => none
  | p :: t => if p.1 = n then some p.2 else lookupA t n

/-- Attribute creation with duplicate detection (src/main.cc 160-165):
a name already present leaves the map unchanged (warning only). -/
def addAttr (m : List (List Char × List Char)) (nv : List Char × List Char) :
    List (List Char × List Char) :=
  if (lookupA m nv.1).isSome then m else m ++ [nv]

/-- The attribute map after the header loop (src/main.cc 141-168). -/
def processHeaders (recs : List (List Char)) : List (List Char × List Char) :=
  recs.foldl
    (fun m r =>
      match parseRecord r with
      | none => m
      | some nv => addAttr m nv)
    initAttrs

/-! ### Pipeline driver and status checking (src/main.cc 36-241) -/

/-- Externally observable steps of the driver, in program order. -/
inductive Step where
  | openInput : Step
  | getImgType : Step
  | getImgDim : Step
  | getImgSize : Step
  | createOutput : Step
  | getHdrSpace : Step
  | readRecord : ℕ → Step
  | readPix : ℕ → Step
  | writeData : ℕ → Step
  | writeSwizzled : ℕ → Step
  | writeStats : Step
  | renameTmp : Step
deriving DecidableEq

/-- The environment of one run: argument count, the statuses returned by
each external FITS call, and the geometry the reader reports.  Every
external call returns a status through the shared status word; the
fields record what each call would leave there. -/
structure Env where
  argc : ℕ
  openStatus : ℤ
  getImgTypeStatus : ℤ
  getImgDimStatus : ℤ
  getImgSizeStatus : ℤ
  hdrSpaceStatus : ℤ
  readRecordStatus : ℕ → ℤ
  readPixStatus : ℕ → ℤ
  bitpix : ℤ
  naxis : ℤ
  numHeaders : ℕ
  stokes : ℕ
  depth : ℕ

/-- The driver control flow of src/main.cc 36-241 at the level of
status checks and performed steps.  Faithful to the source: the status
word is tested once, right after fits_open_file (line 69); the statuses
of fits_get_img_type, fits_get_img_dim, fits_get_img_size,
fits_get_hdrspace, fits_read_record and fits_read_pix are written into
the status word but never tested, and the run continues to completion
with exit code 0 regardless of them. -/
def runDriver (e : Env) : ℕ × List Step :=
  if e.argc < 2 ∨ 3 < e.argc then (1, [])
  else if e.openStatus ≠ 0 then (1, [Step.openInput])
  else
    let s2 := [Step.openInput, Step.getImgType, Step.getImgDim]
    if e.bitpix ≠ -32 then (1, s2)
    else if e.naxis < 2 ∨ 4 < e.naxis then (1, s2)
    else
      let s3 := s2 ++ [Step.getImgSize, Step.createOutput, Step.getHdrSpace] ++
        (List.range e.numHeaders).map Step.readRecord
      let s4 := s3 ++ (List.range e.stokes).flatMap fun s =>
        [Step.readPix s, Step.writeData s] ++
          (if 1 < e.depth then [Step.writeSwizzled s] else [])
      (0, s4 ++ [Step.writeStats, Step.renameTmp])

/-! ### Accumulation precision (src/main.cc 251, 268; claim C8)

The exact-rational embedding above cannot distinguish single- from
double-precision accumulation, so the precision claim is settled against
a rounding model: `fl p` rounds a rational to the nearest (ties to even)
binary floating-point number with a p-bit significand (exponent
unbounded; all values involved are far from FP32 overflow and underflow).
FP32 has p = 24, FP64 has p = 53; IEEE addition and division of exactly
represented operands produce the correctly rounded exact result. -/

/-- Nearest integer, ties to even. -/
def roundHalfEven (q : ℚ) : ℤ :=
  if q - (⌊q⌋ : ℚ) < 1 / 2 then ⌊q⌋
  else if 1 / 2 < q - (⌊q⌋ : ℚ) then ⌊q⌋ + 1
  else if ⌊q⌋ % 2 = 0 then ⌊q⌋ else ⌊q⌋ + 1

/-- 2^n over ℚ by structural recursion. -/
def qpow2P : ℕ → ℚ
  | 0 => 1
  | n + 1 => 2 * qpow2P n

/-- 2^z over ℚ for an integer exponent. -/
def qpow2 : ℤ → ℚ
  | Int.ofNat n => qpow2P n
  | Int.negSucc n => 1 / qpow2P (n + 1)

/-- Number of halvings that bring q (with q ≥ 1) below 2, bounded by
the fuel: the binary exponent of q when q < 2^(fuel+1). -/
def exp2Down (q : ℚ) : ℕ → ℕ
  | 0 => 0
  | n + 1 => if q < 2 then 0 else exp2Down (q / 2) n + 1

/-- Number of doublings needed to bring q (with 0 < q < 1) to at least
1, bounded by the fuel. -/
def exp2Up (q : ℚ) : ℕ → ℕ
  | 0 => 0
  | n + 1 => if 1 ≤ q then 0 else exp2Up (2 * q) n + 1

/-- Binary exponent of q: the e with 2^e ≤ q < 2^(e+1).  Exact for
2^(−200) ≤ q < 2^201, which covers the entire FP32 range with room to
spare; every value in this development is far inside. -/
def qexp (q : ℚ) : ℤ :=
  if 1 ≤ q then (exp2Down q 200 : ℤ) else -(exp2Up q 200 : ℤ)

/-- Round to the nearest binary float with a p-bit significand, ties to
even: the IEEE-754 result of any arithmetic operation whose exact value
is x, in the absence of overflow and underflow. -/
def fl (p : ℕ) (x : ℚ) : ℚ :=
  if x = 0 then 0
  else
    (roundHalfEven (x / qpow2 (qexp |x| - (p : ℤ) + 1)) : ℚ) *
      qpow2 (qexp |x| - (p : ℤ) + 1)

/-- The per-slice sum as the source computes it (src/main.cc 251 and
268): a float accumulator, so every addition rounds to 24 bits. -/
def sliceSumF32 (vals : List FV) : ℚ :=
  vals.foldl
    (fun s v =>
      match v with
      | some x => fl 24 (s + x)
      | none => s) 0

/-- Modelled from the spec: the accumulation the claim asserts, a
double accumulator, so every addition rounds to 53 bits. -/
def sliceSumF64 (vals : List FV) : ℚ :=
  vals.foldl
    (fun s v =>
      match v with
      | some x => fl 53 (s + x)
      | none => s) 0

/-- The published FP32 mean from a float accumulator: float division of
the float sum by the finite count (src/main.cc 279). -/
def sliceMeanF32 (vals : List FV) (cnt : ℕ) : ℚ := fl 24 (sliceSumF32 vals / (cnt : ℚ))

/-- Modelled from the spec: the published FP32 mean the claim asserts -
a double accumulator, converted to FP32 only when published. -/
def sliceMeanClaim (vals : List FV) (cnt : ℕ) : ℚ := fl 24 (sliceSumF64 vals / (cnt : ℚ))

/-! ### Output filename derivation (src/main.cc 44-54; claim C9) -/

/-- string::find_last_of(".fits") searches for the last occurrence of
ANY of the characters '.', 'f', 'i', 't', 's' - a character-set search,
not a substring search. -/
def findLastOfFits (l : List Char) : Option ℕ :=
  match l.reverse.findIdx? (fun c => (".fits".toList).contains c) with
  | none => none
  | some r => some (l.length - 1 - r)

/-- Output name derivation (src/main.cc 46-54): when find_last_of hits,
substr(0, fitsIndex - 4) in size_t arithmetic - for fitsIndex below 4
the count wraps around 2^64 and substr clamps it to the whole string -
then ".hdf5" is appended; when it misses, ".hdf5" is appended to the
full input name. -/
def deriveOutputName (input : List Char) : List Char :=
  match findLastOfFits input with
  | some idx => (if 4 ≤ idx then input.take (idx - 4) else input) ++ ".hdf5".toList
  | none => input ++ ".hdf5".toList

/-! ## Helper lemmas: the statistics fold -/

theorem mem_finiteVals {vals : List FV} {x : ℚ} : x ∈ finiteVals vals ↔ some x ∈ vals := by
  simp [finiteVals, List.mem_filterMap]

theorem foldl_statStep_nanCount (vals : List FV) (acc : SliceAcc) :
    (vals.foldl statStep acc).nanCount = acc.nanCount + (vals.countP Option.isNone : ℤ) := by
  induction vals generalizing acc with
  | nil => simp
  | cons v vs ih =>
    cases v with
    | none => simp [statStep, List.countP_cons, ih] ; ring
    | some x => simp [statStep, List.countP_cons, ih]

theorem foldl_statStep_sum (vals : List FV) (acc : SliceAcc) :
    (vals.foldl statStep acc).sum = acc.sum + (finiteVals vals).sum := by
  induction vals generalizing acc with
  | nil => simp [finiteVals]
  | cons v vs ih =>
    cases v with
    | none => simp [statStep, finiteVals, List.filterMap_cons, ih]
    | some x =>
      simp only [statStep, finiteVals, List.filterMap_cons, List.foldl_cons] at ih ⊢
      rw [ih]
      simp ; ring

theorem foldl_statStep_minVal (vals : List FV) (acc : SliceAcc) :
    (vals.foldl statStep acc).minVal = (finiteVals vals).foldl min acc.minVal := by
  induction vals generalizing acc with
  | nil => simp [finiteVals]
  | cons v vs ih => cases v <;> simp [statStep, finiteVals, List.filterMap_cons, ih]

theorem foldl_statStep_maxVal (vals : List FV) (acc : SliceAcc) :
    (vals.foldl statStep acc).maxVal = (finiteVals vals).foldl max acc.maxVal := by
  induction vals generalizing acc with
  | nil => simp [finiteVals]
  | cons v vs ih => cases v <;> simp [statStep, finiteVals, List.filterMap_cons, ih]

theorem foldl_min_le_init (l : List ℚ) (a : ℚ) : l.foldl min a ≤ a := by
  induction l generalizing a with
  | nil => simp
  | cons b l ih => exact le_trans (ih (min a b)) (min_le_left a b)

theorem foldl_min_le (l : List ℚ) (a : ℚ) : ∀ x ∈ l, l.foldl min a ≤ x := by
  induction l generalizing a with
  | nil => simp
  | cons b l ih =>
    intro x hx
    rcases List.mem_cons.mp hx with h | h
    · subst h
      exact le_trans (foldl_min_le_init l (min a x)) (min_le_right a x)
    · exact ih (min a b) x h

theorem foldl_min_mem_or_init (l : List ℚ) (a : ℚ) : l.foldl min a ∈ l ∨ l.foldl min a = a := by
  induction l generalizing a with
  | nil => simp
  | cons b l ih =>
    rcases ih (min a b) with h | h
    · exact Or.inl (List.mem_cons_of_mem b h)
    · rcases min_choice a b with hc | hc
      · right ; rw [List.foldl_cons, h, hc]
      · left ; rw [List.foldl_cons, h, hc] ; exact List.mem_cons_self b l

theorem foldl_max_ge_init (l : List ℚ) (a : ℚ) : a ≤ l.foldl max a := by
  induction l generalizing a with
  | nil => simp
  | cons b l ih => exact le_trans (le_max_left a b) (ih (max a b))

theorem foldl_max_ge (l : List ℚ) (a : ℚ) : ∀ x ∈ l, x ≤ l.foldl max a := by
  induction l generalizing a with
  | nil => simp
  | cons b l ih =>
    intro x hx
    rcases List.mem_cons.mp hx with h | h
    · subst h
      exact le_trans (le_max_right a x) (foldl_max_ge_init l (max a x))
    · exact ih (max a b) x h

theorem foldl_max_mem_or_init (l : List ℚ) (a : ℚ) : l.foldl max a ∈ l ∨ l.foldl max a = a := by
  induction l generalizing a with
  | nil => simp
  | cons b l ih =>
    rcases ih (max a b) with h | h
    · exact Or.inl (List.mem_cons_of_mem b h)
    · rcases max_choice a b with hc | hc
      · right ; rw [List.foldl_cons, h, hc]
      · left ; rw [List.foldl_cons, h, hc] ; exact List.mem_cons_self b l

theorem length_eq_countP_none_add_finite (vals : List FV) :
    vals.length = vals.countP Option.isNone + (finiteVals vals).length := by
  induction vals with
  | nil => simp [finiteVals]
  | cons v vs ih =>
    cases v <;> simp [List.countP_cons, finiteVals, List.filterMap_cons] <;>
      simp [finiteVals] at ih <;> omega

theorem length_flatMap_range {α : Type} (n m : ℕ) (g : ℕ → ℕ → α) :
    ((List.range n).flatMap fun j => (List.range m).map (g j)).length = n * m := by
  induction n with
  | zero => simp
  | succ n ih =>
    rw [List.range_succ]
    simp only [List.flatMap_append, List.length_append, ih, List.flatMap_cons,
      List.flatMap_nil, List.append_nil, List.length_map, List.length_range]
    ring

theorem sliceVals_length (data : ℕ → FV) (W H i : ℕ) :
    (sliceVals data W H i).length = H * W := by
  rw [sliceVals] ; exact length_flatMap_range H W _

theorem finiteVals_ne_nil (vals : List FV) (h : vals.countP Option.isNone < vals.length) :
    finiteVals vals ≠ [] := by
  intro hnil
  have := length_eq_countP_none_add_finite vals
  rw [hnil] at this
  simp at this
  omega

theorem publishXY_nanC (H W : ℕ) (vals : List FV) :
    (publishXY H W vals).nanC = (runStats vals).nanCount := by
  rw [publishXY] ; split <;> rfl

theorem runStats_nanCount (vals : List FV) :
    (runStats vals).nanCount = (vals.countP Option.isNone : ℤ) := by
  have h := foldl_statStep_nanCount vals initAcc
  simpa [runStats, initAcc] using h

theorem runStats_minVal (vals : List FV) :
    (runStats vals).minVal = (finiteVals vals).foldl min FMAX := by
  have h := foldl_statStep_minVal vals initAcc
  simpa [runStats, initAcc] using h

theorem runStats_maxVal (vals : List FV) :
    (runStats vals).maxVal = (finiteVals vals).foldl max (-FMAX) := by
  have h := foldl_statStep_maxVal vals initAcc
  simpa [runStats, initAcc] using h

theorem runStats_sum (vals : List FV) :
    (runStats vals).sum = (finiteVals vals).sum := by
  have h := foldl_statStep_sum vals initAcc
  simpa [runStats, initAcc] using h

/-- The attained minimum of the statistics fold: when some value is
finite and all finite values are within the FP32 range, the accumulated
minVal is a member of the finite values and a lower bound for them. -/
theorem runStats_min_attained (vals : List FV) (hb : ∀ v ∈ vals, FVBounded v)
    (hne : finiteVals vals ≠ []) :
    (runStats vals).minVal ∈ finiteVals vals ∧
      ∀ x ∈ finiteVals vals, (runStats vals).minVal ≤ x := by
  rw [runStats_minVal]
  refine ⟨?_, foldl_min_le _ _⟩
  rcases foldl_min_mem_or_init (finiteVals vals) FMAX with h | h
  · exact h
  · obtain ⟨y, hy⟩ := List.exists_mem_of_ne_nil _ hne
    have hyb : y ≤ FMAX := (hb (some y) (mem_finiteVals.mp hy)).2
    have hley := foldl_min_le (finiteVals vals) FMAX y hy
    have heq : (finiteVals vals).foldl min FMAX = y := by
      apply le_antisymm hley
      rw [h] ; exact hyb
    rw [heq] ; exact hy

/-- The attained maximum, symmetrically. -/
theorem runStats_max_attained (vals : List FV) (hb : ∀ v ∈ vals, FVBounded v)
    (hne : finiteVals vals ≠ []) :
    (runStats vals).maxVal ∈ finiteVals vals ∧
      ∀ x ∈ finiteVals vals, x ≤ (runStats vals).maxVal := by
  rw [runStats_maxVal]
  refine ⟨?_, foldl_max_ge _ _⟩
  rcases foldl_max_mem_or_init (finiteVals vals) (-FMAX) with h | h
  · exact h
  · obtain ⟨y, hy⟩ := List.exists_mem_of_ne_nil _ hne
    have hyb : -FMAX ≤ y := (hb (some y) (mem_finiteVals.mp hy)).1
    have hley := foldl_max_ge (finiteVals vals) (-FMAX) y hy
    have heq : (finiteVals vals).foldl max (-FMAX) = y := by
      apply le_antisymm
      · rw [h] ; exact hyb
      · exact hley
    rw [heq] ; exact hy

/-- C3.  Per-XY-slice statistics postcondition: after the slice pass the
published NaN count lies in [0, H·W]; when it equals H·W the published
min, max and mean are NaN; otherwise the mean is the sum of the finite
values of the slice divided by (H·W − nanCount), and min/max are the
minimum/maximum over the finite values of the slice. -/
theorem xy_slice_stats_postcondition (data : ℕ → FV) (W H i : ℕ)
    (hb : ∀ v ∈ sliceVals data W H i, FVBounded v) :
    0 ≤ (publishXY H W (sliceVals data W H i)).nanC ∧
    (publishXY H W (sliceVals data W H i)).nanC ≤ (H : ℤ) * W ∧
    ((publishXY H W (sliceVals data W H i)).nanC = (H : ℤ) * W →
      (publishXY H W (sliceVals data W H i)).minV = none ∧
      (publishXY H W (sliceVals data W H i)).maxV = none ∧
      (publishXY H W (sliceVals data W H i)).meanV = none) ∧
    ((publishXY H W (sliceVals data W H i)).nanC < (H : ℤ) * W →
      (publishXY H W (sliceVals data W H i)).meanV =
        some ((finiteVals (sliceVals data W H i)).sum /
          ((H : ℚ) * W - ((publishXY H W (sliceVals data W H i)).nanC : ℚ))) ∧
      (∃ m, (publishXY H W (sliceVals data W H i)).minV = some m ∧
        m ∈ finiteVals (sliceVals data W H i) ∧
        ∀ x ∈ finiteVals (sliceVals data W H i), m ≤ x) ∧
      (∃ M, (publishXY H W (sliceVals data W H i)).maxV = some M ∧
        M ∈ finiteVals (sliceVals data W H i) ∧
        ∀ x ∈ finiteVals (sliceVals data W H i), x ≤ M)) := by
  have hlen := sliceVals_length data W H i
  have hcount : (sliceVals data W H i).countP Option.isNone ≤ H * W := by
    rw [← hlen] ; exact List.countP_le_length _
  have hnan := runStats_nanCount (sliceVals data W H i)
  have hnanC := publishXY_nanC H W (sliceVals data W H i)
  refine ⟨?_, ?_, ?_, ?_⟩
  · rw [hnanC, hnan] ; positivity
  · rw [hnanC, hnan]
    exact_mod_cast hcount
  · intro heq
    have hne : (runStats (sliceVals data W H i)).nanCount = (H : ℤ) * W := by
      rw [← hnanC] ; exact heq
    unfold publishXY
    simp [hne]
  · intro hlt
    have hne : ¬ (runStats (sliceVals data W H i)).nanCount = (H : ℤ) * W := by
      rw [← hnanC] ; exact ne_of_lt hlt
    have hfne : finiteVals (sliceVals data W H i) ≠ [] := by
      apply finiteVals_ne_nil
      rw [hlen]
      have : (sliceVals data W H i).countP Option.isNone ≠ H * W := by
        intro hc
        apply hne
        rw [hnan, hc]
        push_cast ; ring
      omega
    have hmin := runStats_min_attained (sliceVals data W H i) hb hfne
    have hmax := runStats_max_attained (sliceVals data W H i) hb hfne
    have hdiv : ((H : ℤ) * W - (runStats (sliceVals data W H i)).nanCount) ≠ 0 := by
      intro hz
      apply hne
      omega
    refine ⟨?_, ⟨_, ?_, hmin.1, hmin.2⟩, ⟨_, ?_, hmax.1, hmax.2⟩⟩
    · rw [publishXY_nanC]
      rw [publishXY, if_pos hne]
      simp only [fdiv, if_neg hdiv, runStats_sum]
      push_cast
      ring_nf
    · rw [publishXY, if_pos hne]
    · rw [publishXY, if_pos hne]

/-- Witness for C3 at a concrete 1×2 slice containing a NaN. -/
theorem xy_slice_stats_postcondition_witness :
    let data : ℕ → FV := fun n => [some 3, none].getD n none
    0 ≤ (publishXY 1 2 (sliceVals data 2 1 0)).nanC ∧
    (publishXY 1 2 (sliceVals data 2 1 0)).nanC ≤ (1 : ℤ) * 2 ∧
    ((publishXY 1 2 (sliceVals data 2 1 0)).nanC = (1 : ℤ) * 2 →
      (publishXY 1 2 (sliceVals data 2 1 0)).minV = none ∧
      (publishXY 1 2 (sliceVals data 2 1 0)).maxV = none ∧
      (publishXY 1 2 (sliceVals data 2 1 0)).meanV = none) ∧
    ((publishXY 1 2 (sliceVals data 2 1 0)).nanC < (1 : ℤ) * 2 →
      (publishXY 1 2 (sliceVals data 2 1 0)).meanV =
        some ((finiteVals (sliceVals data 2 1 0)).sum /
          ((1 : ℚ) * 2 - ((publishXY 1 2 (sliceVals data 2 1 0)).nanC : ℚ))) ∧
      (∃ m, (publishXY 1 2 (sliceVals data 2 1 0)).minV = some m ∧
        m ∈ finiteVals (sliceVals data 2 1 0) ∧
        ∀ x ∈ finiteVals (sliceVals data 2 1 0), m ≤ x) ∧
      (∃ M, (publishXY 1 2 (sliceVals data 2 1 0)).maxV = some M ∧
        M ∈ finiteVals (sliceVals data 2 1 0) ∧
        ∀ x ∈ finiteVals (sliceVals data 2 1 0), x ≤ M)) :=
  xy_slice_stats_postcondition (fun n => [some 3, none].getD n none) 2 1 0 (by decide)

/-! ## The transpose (claim C1) -/

theorem mem_triples {D H W i j k : ℕ} :
    (i, j, k) ∈ triples D H W ↔ i < D ∧ j < H ∧ k < W := by
  simp only [triples, List.mem_flatMap, List.mem_map, List.mem_range, Prod.mk.injEq]
  constructor
  · rintro ⟨a, ha, b, hb, c, hc, rfl, rfl, rfl⟩
    exact ⟨ha, hb, hc⟩
  · rintro ⟨ha, hb, hc⟩
    exact ⟨i, ha, j, hb, k, hc, rfl, rfl, rfl⟩

theorem destIndex_inj {D H W : ℕ} {i j k i' j' k' : ℕ}
    (hi : i < D) (hj : j < H) (_hk : k < W)
    (hi' : i' < D) (hj' : j' < H) (_hk' : k' < W)
    (h : destIndex D H i j k = destIndex D H i' j' k') :
    i = i' ∧ j = j' ∧ k = k' := by
  have hD : 0 < D := lt_of_le_of_lt (Nat.zero_le i) hi
  have hH : 0 < H := lt_of_le_of_lt (Nat.zero_le j) hj
  have h1 : i + D * (j + H * k) = i' + D * (j' + H * k') := by
    unfold destIndex at h
    have e : ∀ a b c : ℕ, a + D * b + H * D * c = a + D * (b + H * c) := by
      intro a b c ; ring
    rw [e i j k, e i' j' k'] at h
    exact h
  have e2 : i = i' := by
    have hmod := congrArg (fun n => n % D) h1
    simpa [Nat.add_mul_mod_self_left, Nat.mod_eq_of_lt hi, Nat.mod_eq_of_lt hi'] using hmod
  subst e2
  have h3 : j + H * k = j' + H * k' :=
    Nat.eq_of_mul_eq_mul_left hD (Nat.add_left_cancel h1)
  have e4 : j = j' := by
    have hmod := congrArg (fun n => n % H) h3
    simpa [Nat.add_mul_mod_self_left, Nat.mod_eq_of_lt hj, Nat.mod_eq_of_lt hj'] using hmod
  subst e4
  exact ⟨rfl, rfl, Nat.eq_of_mul_eq_mul_left hH (Nat.add_left_cancel h3)⟩

theorem foldl_update_not_mem {α : Type} (ps : List (ℕ × α)) (f : ℕ → α) (d : ℕ)
    (h : ∀ p ∈ ps, p.1 ≠ d) :
    (ps.foldl (fun g p => Function.update g p.1 p.2) f) d = f d := by
  induction ps generalizing f with
  | nil => rfl
  | cons p ps ih =>
    rw [List.foldl_cons, ih _ fun q hq => h q (List.mem_cons_of_mem p hq)]
    exact Function.update_noteq (h p (List.mem_cons_self p ps)).symm _ _

theorem foldl_update_mem {α : Type} (ps : List (ℕ × α)) (f : ℕ → α) (d : ℕ) (v : α)
    (hmem : (d, v) ∈ ps) (huniq : ∀ p ∈ ps, p.1 = d → p.2 = v) :
    (ps.foldl (fun g p => Function.update g p.1 p.2) f) d = v := by
  induction ps generalizing f with
  | nil => cases hmem
  | cons p ps ih =>
    rw [List.foldl_cons]
    by_cases hd : ∃ q ∈ ps, q.1 = d
    · obtain ⟨q, hq, hq1⟩ := hd
      have hq2 : q.2 = v := huniq q (List.mem_cons_of_mem p hq) hq1
      have hqv : (d, v) ∈ ps := by
        have hqe : q = (d, v) := Prod.ext hq1 hq2
        rw [← hqe] ; exact hq
      exact ih _ hqv fun r hr => huniq r (List.mem_cons_of_mem p hr)
    · push_neg at hd
      rw [foldl_update_not_mem ps _ d hd]
      rcases List.mem_cons.mp hmem with h | h
      · rw [← h]
        exact Function.update_same d v f
      · exact absurd rfl (hd (d, v) h)

/-- C1.  Transpose bijection: when D > 1, for every valid index triple
(i,j,k) the rotated cube written by the slice-statistics pass satisfies
rotated[k·(D·H) + j·D + i] = standard[i·(H·W) + j·W + k], NaN pixels
included - the transpose store is unconditional. -/
theorem transpose_bijection (data : ℕ → FV) (D H W i j k : ℕ) (hD : 1 < D)
    (hi : i < D) (hj : j < H) (hk : k < W) :
    rotatedCube data D H W (k * (D * H) + j * D + i) = data (i * (H * W) + j * W + k) := by
  rw [rotatedCube, if_pos hD]
  have hidx : k * (D * H) + j * D + i = destIndex D H i j k := by rw [destIndex] ; ring
  have hsrc : i * (H * W) + j * W + k = srcIndex W H i j k := by rw [srcIndex] ; ring
  rw [hidx, hsrc]
  have hmap : ((triples D H W).map fun t =>
        (destIndex D H t.1 t.2.1 t.2.2, data (srcIndex W H t.1 t.2.1 t.2.2))).foldl
        (fun g p => Function.update g p.1 p.2) (fun _ => none)
      = (triples D H W).foldl
        (fun f t => Function.update f (destIndex D H t.1 t.2.1 t.2.2)
          (data (srcIndex W H t.1 t.2.1 t.2.2))) (fun _ => none) := by
    rw [List.foldl_map]
  rw [← hmap]
  apply foldl_update_mem
  · exact List.mem_map.mpr ⟨(i, j, k), mem_triples.mpr ⟨hi, hj, hk⟩, rfl⟩
  · rintro p hp hpd
    obtain ⟨⟨i', j', k'⟩, ht, rfl⟩ := List.mem_map.mp hp
    obtain ⟨hi', hj', hk'⟩ := mem_triples.mp ht
    obtain ⟨rfl, rfl, rfl⟩ := destIndex_inj hi' hj' hk' hi hj hk hpd
    rfl

/-- Witness for C1 at a concrete 2×1×1 cube whose second plane is NaN:
the transpose store happens for the NaN pixel too. -/
theorem transpose_bijection_witness :
    rotatedCube (fun n => [some 5, none].getD n none) 2 1 1 (0 * (2 * 1) + 0 * 2 + 1) =
      (fun n => [some 5, none].getD n none) (1 * (1 * 1) + 0 * 1 + 0) :=
  transpose_bijection (fun n => [some 5, none].getD n none) 2 1 1 1 0 0
    (by decide) (by decide) (by decide) (by decide)

/-! ## fmin/fmax algebra and the XYZ consolidation (claim C5) -/

theorem fmin_none_left (b : FV) : fmin none b = b := rfl

theorem fmin_none_right (a : FV) : fmin a none = a := by cases a <;> rfl

theorem fmin_assoc (a b c : FV) : fmin (fmin a b) c = fmin a (fmin b c) := by
  cases a <;> cases b <;> cases c <;> simp [fmin, min_assoc]

theorem fmin_comm (a b : FV) : fmin a b = fmin b a := by
  cases a <;> cases b <;> simp [fmin, min_comm]

theorem fmin_idem (a : FV) : fmin a a = a := by
  cases a <;> simp [fmin]

theorem fmax_none_left (b : FV) : fmax none b = b := rfl

theorem fmax_none_right (a : FV) : fmax a none = a := by cases a <;> rfl

theorem fmax_assoc (a b c : FV) : fmax (fmax a b) c = fmax a (fmax b c) := by
  cases a <;> cases b <;> cases c <;> simp [fmax, max_assoc]

theorem fmax_comm (a b : FV) : fmax a b = fmax b a := by
  cases a <;> cases b <;> simp [fmax, max_comm]

theorem fmax_idem (a : FV) : fmax a a = a := by
  cases a <;> simp [fmax]

theorem foldl_fmin_shift (l : List FV) (a b : FV) :
    l.foldl fmin (fmin a b) = fmin a (l.foldl fmin b) := by
  induction l generalizing b with
  | nil => rfl
  | cons c l ih => rw [List.foldl_cons, List.foldl_cons, fmin_assoc, ih]

theorem foldl_fmin_init (l : List FV) (a : FV) :
    l.foldl fmin a = fmin a (l.foldl fmin none) := by
  have h := foldl_fmin_shift l a none
  rwa [fmin_none_right] at h

theorem fmin_foldl_absorb (m : List FV) (v : FV) (hv : v ∈ m) :
    fmin v (m.foldl fmin none) = m.foldl fmin none := by
  induction m with
  | nil => cases hv
  | cons w t ih =>
    rw [List.foldl_cons, fmin_none_left]
    rcases List.mem_cons.mp hv with h | h
    · subst h
      conv_lhs => rw [foldl_fmin_init t v, ← fmin_assoc, fmin_idem, ← foldl_fmin_init]
    · rw [foldl_fmin_init t w, ← fmin_assoc, fmin_comm v w, fmin_assoc, ih h,
        ← foldl_fmin_init]

theorem foldl_fmax_shift (l : List FV) (a b : FV) :
    l.foldl fmax (fmax a b) = fmax a (l.foldl fmax b) := by
  induction l generalizing b with
  | nil => rfl
  | cons c l ih => rw [List.foldl_cons, List.foldl_cons, fmax_assoc, ih]

theorem foldl_fmax_init (l : List FV) (a : FV) :
    l.foldl fmax a = fmax a (l.foldl fmax none) := by
  have h := foldl_fmax_shift l a none
  rwa [fmax_none_right] at h

theorem fmax_foldl_absorb (m : List FV) (v : FV) (hv : v ∈ m) :
    fmax v (m.foldl fmax none) = m.foldl fmax none := by
  induction m with
  | nil => cases hv
  | cons w t ih =>
    rw [List.foldl_cons, fmax_none_left]
    rcases List.mem_cons.mp hv with h | h
    · subst h
      conv_lhs => rw [foldl_fmax_init t v, ← fmax_assoc, fmax_idem, ← foldl_fmax_init]
    · rw [foldl_fmax_init t w, ← fmax_assoc, fmax_comm v w, fmax_assoc, ih h,
        ← foldl_fmax_init]

theorem foldl_fmin_some (t : List FV) (a : ℚ) (h : ∀ v ∈ t, v ≠ none) :
    ∃ c, t.foldl fmin (some a) = some c ∧ (c = a ∨ some c ∈ t) ∧ c ≤ a ∧
      ∀ x : ℚ, some x ∈ t → c ≤ x := by
  induction t generalizing a with
  | nil => exact ⟨a, rfl, Or.inl rfl, le_refl a, by simp⟩
  | cons v t ih =>
    match v, h v (List.mem_cons_self v t) with
    | some b, _ =>
      obtain ⟨c, hc, hmem, hle, hbnd⟩ := ih (min a b) fun w hw => h w (List.mem_cons_of_mem _ hw)
      refine ⟨c, hc, ?_, le_trans hle (min_le_left a b), ?_⟩
      · rcases hmem with h1 | h1
        · rcases min_choice a b with h2 | h2
          · exact Or.inl (h1.trans h2)
          · exact Or.inr (List.mem_cons.mpr (Or.inl (by rw [h1, h2])))
        · exact Or.inr (List.mem_cons_of_mem _ h1)
      · intro x hx
        rcases List.mem_cons.mp hx with h1 | h1
        · have hxb : x = b := by injection h1
          exact hxb ▸ le_trans hle (min_le_right a b)
        · exact hbnd x h1

theorem foldl_fmax_some (t : List FV) (a : ℚ) (h : ∀ v ∈ t, v ≠ none) :
    ∃ c, t.foldl fmax (some a) = some c ∧ (c = a ∨ some c ∈ t) ∧ a ≤ c ∧
      ∀ x : ℚ, some x ∈ t → x ≤ c := by
  induction t generalizing a with
  | nil => exact ⟨a, rfl, Or.inl rfl, le_refl a, by simp⟩
  | cons v t ih =>
    match v, h v (List.mem_cons_self v t) with
    | some b, _ =>
      obtain ⟨c, hc, hmem, hle, hbnd⟩ := ih (max a b) fun w hw => h w (List.mem_cons_of_mem _ hw)
      refine ⟨c, hc, ?_, le_trans (le_max_left a b) hle, ?_⟩
      · rcases hmem with h1 | h1
        · rcases max_choice a b with h2 | h2
          · exact Or.inl (h1.trans h2)
          · exact Or.inr (List.mem_cons.mpr (Or.inl (by rw [h1, h2])))
        · exact Or.inr (List.mem_cons_of_mem _ h1)
      · intro x hx
        rcases List.mem_cons.mp hx with h1 | h1
        · have hxb : x = b := by injection h1
          exact hxb ▸ le_trans (le_max_right a b) hle
        · exact hbnd x h1

theorem foldl_fmin_char (l : List FV) (h : ∀ v ∈ l, v ≠ none) (hne : l ≠ []) :
    ∃ c, l.foldl fmin none = some c ∧ some c ∈ l ∧ ∀ x : ℚ, some x ∈ l → c ≤ x := by
  match l, hne with
  | v :: t, _ =>
    match v, h v (List.mem_cons_self v t) with
    | some a, _ =>
      obtain ⟨c, hc, hmem, hle, hbnd⟩ :=
        foldl_fmin_some t a fun w hw => h w (List.mem_cons_of_mem _ hw)
      rw [List.foldl_cons, fmin_none_left]
      refine ⟨c, hc, ?_, ?_⟩
      · rcases hmem with h1 | h1
        · exact List.mem_cons.mpr (Or.inl (by rw [h1]))
        · exact List.mem_cons_of_mem _ h1
      · intro x hx
        rcases List.mem_cons.mp hx with h1 | h1
        · have hxa : x = a := by injection h1
          exact hxa ▸ hle
        · exact hbnd x h1

theorem foldl_fmax_char (l : List FV) (h : ∀ v ∈ l, v ≠ none) (hne : l ≠ []) :
    ∃ c, l.foldl fmax none = some c ∧ some c ∈ l ∧ ∀ x : ℚ, some x ∈ l → x ≤ c := by
  match l, hne with
  | v :: t, _ =>
    match v, h v (List.mem_cons_self v t) with
    | some a, _ =>
      obtain ⟨c, hc, hmem, hle, hbnd⟩ :=
        foldl_fmax_some t a fun w hw => h w (List.mem_cons_of_mem _ hw)
      rw [List.foldl_cons, fmax_none_left]
      refine ⟨c, hc, ?_, ?_⟩
      · rcases hmem with h1 | h1
        · exact List.mem_cons.mpr (Or.inl (by rw [h1]))
        · exact List.mem_cons_of_mem _ h1
      · intro x hx
        rcases List.mem_cons.mp hx with h1 | h1
        · have hxa : x = a := by injection h1
          exact hxa ▸ hle
        · exact hbnd x h1

theorem foldl_consStep_nan (H W : ℕ) (pub : ℕ → Pub) (l : List ℕ) (acc : XYZAcc) :
    (l.foldl (consStep H W pub) acc).nan = acc.nan + (l.map fun i => (pub i).nanC).sum := by
  induction l generalizing acc with
  | nil => simp
  | cons i l ih =>
    rw [List.foldl_cons, List.map_cons, List.sum_cons]
    cases h : (pub i).meanV <;> simp [consStep, h, ih] <;> ring

theorem foldl_consStep_mn (H W : ℕ) (pub : ℕ → Pub) (l : List ℕ) (acc : XYZAcc) :
    (l.foldl (consStep H W pub) acc).mn =
      ((l.filter fun i => ((pub i).meanV).isSome).map fun i => (pub i).minV).foldl
        fmin acc.mn := by
  induction l generalizing acc with
  | nil => simp
  | cons i l ih =>
    rw [List.foldl_cons, List.filter_cons]
    cases h : (pub i).meanV with
    | none =>
      simp only [h, Option.isSome_none, Bool.false_eq_true, if_neg, ite_false]
      rw [ih]
      have hs : (consStep H W pub acc i).mn = acc.mn := by simp [consStep, h]
      rw [hs]
    | some m =>
      simp only [h, Option.isSome_some, if_pos, ite_true]
      rw [List.map_cons, List.foldl_cons, ih]
      have hs : (consStep H W pub acc i).mn = fmin acc.mn (pub i).minV := by
        simp [consStep, h]
      rw [hs]

theorem foldl_consStep_mx (H W : ℕ) (pub : ℕ → Pub) (l : List ℕ) (acc : XYZAcc) :
    (l.foldl (consStep H W pub) acc).mx =
      ((l.filter fun i => ((pub i).meanV).isSome).map fun i => (pub i).maxV).foldl
        fmax acc.mx := by
  induction l generalizing acc with
  | nil => simp
  | cons i l ih =>
    rw [List.foldl_cons, List.filter_cons]
    cases h : (pub i).meanV with
    | none =>
      simp only [h, Option.isSome_none, Bool.false_eq_true, if_neg, ite_false]
      rw [ih]
      have hs : (consStep H W pub acc i).mx = acc.mx := by simp [consStep, h]
      rw [hs]
    | some m =>
      simp only [h, Option.isSome_some, if_pos, ite_true]
      rw [List.map_cons, List.foldl_cons, ih]
      have hs : (consStep H W pub acc i).mx = fmax acc.mx (pub i).maxV := by
        simp [consStep, h]
      rw [hs]

/-- The consolidated min is the fmin fold, from NaN, over the published
slice minima of the slices whose published mean is finite; the
initialization with slice 0 is absorbed. -/
theorem consolidate_mn_fold (D H W : ℕ) (pub : ℕ → Pub) (hD : 0 < D)
    (h0 : ((pub 0).meanV).isSome = false → (pub 0).minV = none) :
    (consolidateXYZ D H W pub).mn =
      (((List.range D).filter fun z => ((pub z).meanV).isSome).map fun z =>
        (pub z).minV).foldl fmin none := by
  rw [consolidateXYZ, foldl_consStep_mn]
  show List.foldl fmin ((pub 0).minV) _ = _
  rw [foldl_fmin_init]
  by_cases hm : ((pub 0).meanV).isSome = true
  · apply fmin_foldl_absorb
    exact List.mem_map.mpr ⟨0, List.mem_filter.mpr ⟨List.mem_range.mpr hD, hm⟩, rfl⟩
  · rw [h0 (by simpa using hm), fmin_none_left]

/-- The consolidated max, symmetrically. -/
theorem consolidate_mx_fold (D H W : ℕ) (pub : ℕ → Pub) (hD : 0 < D)
    (h0 : ((pub 0).meanV).isSome = false → (pub 0).maxV = none) :
    (consolidateXYZ D H W pub).mx =
      (((List.range D).filter fun z => ((pub z).meanV).isSome).map fun z =>
        (pub z).maxV).foldl fmax none := by
  rw [consolidateXYZ, foldl_consStep_mx]
  show List.foldl fmax ((pub 0).maxV) _ = _
  rw [foldl_fmax_init]
  by_cases hm : ((pub 0).meanV).isSome = true
  · apply fmax_foldl_absorb
    exact List.mem_map.mpr ⟨0, List.mem_filter.mpr ⟨List.mem_range.mpr hD, hm⟩, rfl⟩
  · rw [h0 (by simpa using hm), fmax_none_left]

theorem publishXY_minV_of_ne (H W : ℕ) (vals : List FV)
    (h : (runStats vals).nanCount ≠ (H : ℤ) * W) :
    (publishXY H W vals).minV = some (runStats vals).minVal := by
  rw [publishXY, if_pos h]

theorem publishXY_maxV_of_ne (H W : ℕ) (vals : List FV)
    (h : (runStats vals).nanCount ≠ (H : ℤ) * W) :
    (publishXY H W vals).maxV = some (runStats vals).maxVal := by
  rw [publishXY, if_pos h]

theorem publishXY_of_eq (H W : ℕ) (vals : List FV)
    (h : (runStats vals).nanCount = (H : ℤ) * W) :
    (publishXY H W vals).minV = none ∧ (publishXY H W vals).maxV = none ∧
      (publishXY H W vals).meanV = none := by
  rw [publishXY, if_neg (by simpa using h)]
  exact ⟨rfl, rfl, rfl⟩

theorem publishXY_meanV_isSome (H W : ℕ) (vals : List FV) :
    ((publishXY H W vals).meanV).isSome = true ↔
      (runStats vals).nanCount ≠ (H : ℤ) * W := by
  rw [publishXY]
  by_cases h : (runStats vals).nanCount ≠ (H : ℤ) * W
  · rw [if_pos h]
    simp only [fdiv]
    rw [if_neg (by omega)]
    simpa using h
  · rw [if_neg h]
    simpa using h

theorem publishXY_minV_isSome (H W : ℕ) (vals : List FV) :
    ((publishXY H W vals).minV).isSome = true ↔
      (runStats vals).nanCount ≠ (H : ℤ) * W := by
  rw [publishXY]
  by_cases h : (runStats vals).nanCount ≠ (H : ℤ) * W
  · rw [if_pos h] ; simpa using h
  · rw [if_neg h] ; simpa using h

theorem publishXY_nanC_le (H W : ℕ) (vals : List FV) (hlen : vals.length = H * W) :
    (publishXY H W vals).nanC ≤ (H : ℤ) * W := by
  rw [publishXY_nanC, runStats_nanCount]
  have h := List.countP_le_length (l := vals) (p := Option.isNone)
  rw [hlen] at h
  exact_mod_cast h

/-- C5.  XYZ consolidation: when D > 1, the published NaN count for the
cube is the sum over all slices of the per-slice NaN counts, and the
published cube min (resp. max) is the minimum (resp. maximum) over the
slices that are not entirely NaN of the published slice min (resp. max);
when no such slice exists they are NaN.  In particular the
initialization of the accumulator with the value of slice 0 does not
corrupt the result when slice 0 is entirely NaN. -/
theorem xyz_consolidation (data : ℕ → FV) (D H W : ℕ) (hD : 1 < D) :
    (pubXYZ D H W fun z => publishXY H W (sliceVals data W H z)).nanC =
      ((List.range D).map fun z => (publishXY H W (sliceVals data W H z)).nanC).sum ∧
    ((∀ z < D, (publishXY H W (sliceVals data W H z)).nanC = (H : ℤ) * W) →
      (pubXYZ D H W fun z => publishXY H W (sliceVals data W H z)).minV = none ∧
      (pubXYZ D H W fun z => publishXY H W (sliceVals data W H z)).maxV = none) ∧
    (∀ z₀, z₀ < D → (publishXY H W (sliceVals data W H z₀)).nanC < (H : ℤ) * W →
      (∃ c, (pubXYZ D H W fun z => publishXY H W (sliceVals data W H z)).minV = some c ∧
        (∃ z < D, (publishXY H W (sliceVals data W H z)).nanC < (H : ℤ) * W ∧
          (publishXY H W (sliceVals data W H z)).minV = some c) ∧
        (∀ z < D, (publishXY H W (sliceVals data W H z)).nanC < (H : ℤ) * W →
          ∀ x : ℚ, (publishXY H W (sliceVals data W H z)).minV = some x → c ≤ x)) ∧
      (∃ c, (pubXYZ D H W fun z => publishXY H W (sliceVals data W H z)).maxV = some c ∧
        (∃ z < D, (publishXY H W (sliceVals data W H z)).nanC < (H : ℤ) * W ∧
          (publishXY H W (sliceVals data W H z)).maxV = some c) ∧
        (∀ z < D, (publishXY H W (sliceVals data W H z)).nanC < (H : ℤ) * W →
          ∀ x : ℚ, (publishXY H W (sliceVals data W H z)).maxV = some x → x ≤ c))) := by
  set pub : ℕ → Pub := fun z => publishXY H W (sliceVals data W H z) with hpub
  have hle : ∀ z, (pub z).nanC ≤ (H : ℤ) * W := fun z =>
    publishXY_nanC_le H W _ (sliceVals_length data W H z)
  have hlt_iff : ∀ z, (pub z).nanC < (H : ℤ) * W ↔ (pub z).nanC ≠ (H : ℤ) * W := by
    intro z
    constructor
    · exact ne_of_lt
    · intro h ; exact lt_of_le_of_ne (hle z) h
  have hnanC : ∀ z, (pub z).nanC = (runStats (sliceVals data W H z)).nanCount := fun z =>
    publishXY_nanC H W _
  -- the restricted index list
  set restr : List ℕ := (List.range D).filter fun z => ((pub z).meanV).isSome with hrestr
  have hrestr_mem : ∀ z, z ∈ restr ↔ z < D ∧ (pub z).nanC ≠ (H : ℤ) * W := by
    intro z
    rw [hrestr, List.mem_filter, List.mem_range]
    constructor
    · rintro ⟨h1, h2⟩
      exact ⟨h1, by rw [hnanC z] ; exact (publishXY_meanV_isSome H W _).mp h2⟩
    · rintro ⟨h1, h2⟩
      exact ⟨h1, (publishXY_meanV_isSome H W _).mpr (by rw [hnanC z] at h2 ; exact h2)⟩
  -- the consolidated min is the fmin fold from none over the restricted list
  have h0mean : ∀ z, ((pub z).meanV).isSome = false →
      (pub z).minV = none ∧ (pub z).maxV = none := by
    intro z hz
    have : (runStats (sliceVals data W H z)).nanCount = (H : ℤ) * W := by
      by_contra hc
      rw [(publishXY_meanV_isSome H W _).mpr hc] at hz
      cases hz
    obtain ⟨a, b, _⟩ := publishXY_of_eq H W _ this
    exact ⟨a, b⟩
  have hm : (consolidateXYZ D H W pub).mn = (restr.map fun z => (pub z).minV).foldl fmin none :=
    consolidate_mn_fold D H W pub (lt_trans one_pos hD) fun h => (h0mean 0 h).1
  have hx : (consolidateXYZ D H W pub).mx = (restr.map fun z => (pub z).maxV).foldl fmax none :=
    consolidate_mx_fold D H W pub (lt_trans one_pos hD) fun h => (h0mean 0 h).2
  have hminsome : ∀ v ∈ restr.map fun z => (pub z).minV, v ≠ none := by
    rintro v hv
    obtain ⟨z, hz, rfl⟩ := List.mem_map.mp hv
    have := ((hrestr_mem z).mp hz).2
    rw [hnanC z] at this
    rw [publishXY_minV_of_ne H W _ this]
    simp
  have hmaxsome : ∀ v ∈ restr.map fun z => (pub z).maxV, v ≠ none := by
    rintro v hv
    obtain ⟨z, hz, rfl⟩ := List.mem_map.mp hv
    have := ((hrestr_mem z).mp hz).2
    rw [hnanC z] at this
    rw [publishXY_maxV_of_ne H W _ this]
    simp
  refine ⟨?_, ?_, ?_⟩
  · rw [pubXYZ]
    show (consolidateXYZ D H W pub).nan = _
    rw [consolidateXYZ, foldl_consStep_nan]
    simp
  · intro hall
    have hempty : restr = [] := by
      rw [List.eq_nil_iff_forall_not_mem]
      intro z hz
      obtain ⟨h1, h2⟩ := (hrestr_mem z).mp hz
      exact h2 (hall z h1)
    constructor
    · show (consolidateXYZ D H W pub).mn = none
      rw [hm, hempty] ; rfl
    · show (consolidateXYZ D H W pub).mx = none
      rw [hx, hempty] ; rfl
  · intro z₀ hz₀ hz₀lt
    have hz₀mem : z₀ ∈ restr := (hrestr_mem z₀).mpr ⟨hz₀, ne_of_lt hz₀lt⟩
    have hne : restr.map (fun z => (pub z).minV) ≠ [] := by
      intro hc
      rw [List.map_eq_nil_iff] at hc
      rw [hc] at hz₀mem
      cases hz₀mem
    have hne' : restr.map (fun z => (pub z).maxV) ≠ [] := by
      intro hc
      rw [List.map_eq_nil_iff] at hc
      rw [hc] at hz₀mem
      cases hz₀mem
    obtain ⟨c, hc, hcmem, hcbnd⟩ := foldl_fmin_char _ hminsome hne
    obtain ⟨c', hc', hcmem', hcbnd'⟩ := foldl_fmax_char _ hmaxsome hne'
    constructor
    · refine ⟨c, ?_, ?_, ?_⟩
      · show (consolidateXYZ D H W pub).mn = some c
        rw [hm] ; exact hc
      · obtain ⟨z, hz, hzc⟩ := List.mem_map.mp hcmem
        obtain ⟨h1, h2⟩ := (hrestr_mem z).mp hz
        exact ⟨z, h1, (hlt_iff z).mpr h2, hzc⟩
      · intro z hz hzlt x hxv
        apply hcbnd
        apply List.mem_map.mpr
        exact ⟨z, (hrestr_mem z).mpr ⟨hz, ne_of_lt hzlt⟩, hxv⟩
    · refine ⟨c', ?_, ?_, ?_⟩
      · show (consolidateXYZ D H W pub).mx = some c'
        rw [hx] ; exact hc'
      · obtain ⟨z, hz, hzc⟩ := List.mem_map.mp hcmem'
        obtain ⟨h1, h2⟩ := (hrestr_mem z).mp hz
        exact ⟨z, h1, (hlt_iff z).mpr h2, hzc⟩
      · intro z hz hzlt x hxv
        apply hcbnd'
        apply List.mem_map.mpr
        exact ⟨z, (hrestr_mem z).mpr ⟨hz, ne_of_lt hzlt⟩, hxv⟩

/-- Witness for C5 at a 2×1×1 cube whose slice 0 is entirely NaN. -/
theorem xyz_consolidation_witness :
    (pubXYZ 2 1 1 fun z => publishXY 1 1 (sliceVals (fun n => [none, some 7].getD n none) 1 1 z)).nanC =
      ((List.range 2).map fun z =>
        (publishXY 1 1 (sliceVals (fun n => [none, some 7].getD n none) 1 1 z)).nanC).sum ∧
    ((∀ z < 2, (publishXY 1 1 (sliceVals (fun n => [none, some 7].getD n none) 1 1 z)).nanC =
        ((1 : ℕ) : ℤ) * (1 : ℕ)) →
      (pubXYZ 2 1 1 fun z => publishXY 1 1 (sliceVals (fun n => [none, some 7].getD n none) 1 1 z)).minV = none ∧
      (pubXYZ 2 1 1 fun z => publishXY 1 1 (sliceVals (fun n => [none, some 7].getD n none) 1 1 z)).maxV = none) ∧
    (∀ z₀, z₀ < 2 →
      (publishXY 1 1 (sliceVals (fun n => [none, some 7].getD n none) 1 1 z₀)).nanC <
        ((1 : ℕ) : ℤ) * (1 : ℕ) →
      (∃ c, (pubXYZ 2 1 1 fun z => publishXY 1 1 (sliceVals (fun n => [none, some 7].getD n none) 1 1 z)).minV = some c ∧
        (∃ z < 2, (publishXY 1 1 (sliceVals (fun n => [none, some 7].getD n none) 1 1 z)).nanC <
            ((1 : ℕ) : ℤ) * (1 : ℕ) ∧
          (publishXY 1 1 (sliceVals (fun n => [none, some 7].getD n none) 1 1 z)).minV = some c) ∧
        (∀ z < 2, (publishXY 1 1 (sliceVals (fun n => [none, some 7].getD n none) 1 1 z)).nanC <
            ((1 : ℕ) : ℤ) * (1 : ℕ) →
          ∀ x : ℚ, (publishXY 1 1 (sliceVals (fun n => [none, some 7].getD n none) 1 1 z)).minV = some x → c ≤ x)) ∧
      (∃ c, (pubXYZ 2 1 1 fun z => publishXY 1 1 (sliceVals (fun n => [none, some 7].getD n none) 1 1 z)).maxV = some c ∧
        (∃ z < 2, (publishXY 1 1 (sliceVals (fun n => [none, some 7].getD n none) 1 1 z)).nanC <
            ((1 : ℕ) : ℤ) * (1 : ℕ) ∧
          (publishXY 1 1 (sliceVals (fun n => [none, some 7].getD n none) 1 1 z)).maxV = some c) ∧
        (∀ z < 2, (publishXY 1 1 (sliceVals (fun n => [none, some 7].getD n none) 1 1 z)).nanC <
            ((1 : ℕ) : ℤ) * (1 : ℕ) →
          ∀ x : ℚ, (publishXY 1 1 (sliceVals (fun n => [none, some 7].getD n none) 1 1 z)).maxV = some x → x ≤ c))) :=
  xyz_consolidation (fun n => [none, some 7].getD n none) 2 1 1 (by decide)

/-! ## Histogram lemmas (claims C4 and C10) -/

theorem truncQ_nonneg (x : ℚ) (h : 0 ≤ x) : 0 ≤ truncQ x := by
  rw [truncQ, if_pos h]
  exact Int.floor_nonneg.mpr h

theorem binIndex_bounds (B : ℕ) (hB : 1 ≤ B) (mn range v : ℚ)
    (hv : mn ≤ v) (hr : 0 < range) :
    0 ≤ binIndex B mn range v ∧ binIndex B mn range v ≤ (B : ℤ) - 1 := by
  constructor
  · apply le_min
    · have : (1 : ℤ) ≤ (B : ℤ) := by exact_mod_cast hB
      omega
    · exact truncQ_nonneg _ (div_nonneg (mul_nonneg (by positivity) (by linarith)) (le_of_lt hr))
  · exact min_le_left _ _

theorem rowSum_zero (B : ℕ) : rowSum B (fun _ => 0) = 0 := by simp [rowSum]

theorem rowSum_update (B : ℕ) (h : ℤ → ℤ) (d : ℤ) (hd0 : 0 ≤ d) (hdB : d < (B : ℤ)) :
    rowSum B (Function.update h d (h d + 1)) = rowSum B h + 1 := by
  have hn : d.toNat < B := by omega
  have hmem : d.toNat ∈ Finset.range B := Finset.mem_range.mpr hn
  have hcast : ((d.toNat : ℤ)) = d := Int.toNat_of_nonneg hd0
  rw [rowSum, rowSum, ← Finset.add_sum_erase _ _ hmem, ← Finset.add_sum_erase _ _ hmem]
  have h1 : Function.update h d (h d + 1) ((d.toNat : ℤ)) = h d + 1 := by
    rw [hcast] ; exact Function.update_same d _ h
  have h2 : ∀ b ∈ (Finset.range B).erase d.toNat,
      Function.update h d (h d + 1) ((b : ℤ)) = h ((b : ℤ)) := by
    intro b hb
    have hbne : b ≠ d.toNat := (Finset.mem_erase.mp hb).1
    apply Function.update_noteq
    intro hc
    apply hbne
    omega
  rw [h1, Finset.sum_congr rfl h2, hcast]
  ring

theorem rowSum_foldl_histStep (B : ℕ) (hB : 1 ≤ B) (mn range : ℚ) (hr : 0 < range)
    (vals : List FV) (h0 : ℤ → ℤ) (hge : ∀ x : ℚ, some x ∈ vals → mn ≤ x) :
    rowSum B (vals.foldl (histStep B mn range) h0) =
      rowSum B h0 + ((finiteVals vals).length : ℤ) := by
  induction vals generalizing h0 with
  | nil => simp [finiteVals]
  | cons v t ih =>
    cases v with
    | none =>
      rw [List.foldl_cons]
      show rowSum B (t.foldl (histStep B mn range) h0) = _
      rw [ih h0 fun x hx => hge x (List.mem_cons_of_mem _ hx)]
      simp [finiteVals]
    | some x =>
      rw [List.foldl_cons]
      have hbnd := binIndex_bounds B hB mn range x (hge x (List.mem_cons_self _ t)) hr
      show rowSum B (t.foldl (histStep B mn range)
        (Function.update h0 (binIndex B mn range x) (h0 (binIndex B mn range x) + 1))) = _
      rw [ih _ fun y hy => hge y (List.mem_cons_of_mem _ hy)]
      rw [rowSum_update B h0 _ hbnd.1 (by omega)]
      have : (finiteVals (some x :: t)).length = (finiteVals t).length + 1 := by
        simp [finiteVals, List.filterMap_cons]
      rw [this]
      push_cast
      ring

/-- C4.  Histogram conservation: for a slice whose published min and max
are finite with nonzero range, the sum over all B bins of the XY
histogram row equals H·W minus the slice NaN count; an all-NaN slice or
a zero-range slice leaves the entire row zero. -/
theorem histogram_conservation (data : ℕ → FV) (W H i B : ℕ) (hB : 1 ≤ B) :
    (∀ mn mx : ℚ, (publishXY H W (sliceVals data W H i)).minV = some mn →
      (publishXY H W (sliceVals data W H i)).maxV = some mx → mx - mn ≠ 0 →
      rowSum B (histRowXY B H W (sliceVals data W H i)) =
        (H : ℤ) * W - (publishXY H W (sliceVals data W H i)).nanC) ∧
    ((publishXY H W (sliceVals data W H i)).nanC = (H : ℤ) * W →
      histRowXY B H W (sliceVals data W H i) = fun _ => 0) ∧
    (∀ mn mx : ℚ, (publishXY H W (sliceVals data W H i)).minV = some mn →
      (publishXY H W (sliceVals data W H i)).maxV = some mx → mx - mn = 0 →
      histRowXY B H W (sliceVals data W H i) = fun _ => 0) := by
  refine ⟨?_, ?_, ?_⟩
  · intro mn mx hmin hmax hrange
    have hne : (runStats (sliceVals data W H i)).nanCount ≠ (H : ℤ) * W := by
      by_contra hc
      rw [(publishXY_of_eq H W _ hc).1] at hmin
      cases hmin
    have hmn : mn = (runStats (sliceVals data W H i)).minVal := by
      rw [publishXY_minV_of_ne H W _ hne] at hmin
      exact (Option.some.inj hmin).symm
    have hmx : mx = (runStats (sliceVals data W H i)).maxVal := by
      rw [publishXY_maxV_of_ne H W _ hne] at hmax
      exact (Option.some.inj hmax).symm
    have hge : ∀ x : ℚ, some x ∈ sliceVals data W H i → mn ≤ x := by
      intro x hx
      rw [hmn, runStats_minVal]
      exact foldl_min_le _ _ x (mem_finiteVals.mpr hx)
    have hle : ∀ x : ℚ, some x ∈ sliceVals data W H i → x ≤ mx := by
      intro x hx
      rw [hmx, runStats_maxVal]
      exact foldl_max_ge _ _ x (mem_finiteVals.mpr hx)
    have hfne : finiteVals (sliceVals data W H i) ≠ [] := by
      apply finiteVals_ne_nil
      have hlen := sliceVals_length data W H i
      have hcnt : ((sliceVals data W H i).countP Option.isNone : ℤ) ≠ (H : ℤ) * W := by
        rw [← runStats_nanCount] ; exact hne
      have hcle := List.countP_le_length (l := sliceVals data W H i) (p := Option.isNone)
      rw [hlen] at hcle
      have : ((sliceVals data W H i).countP Option.isNone : ℤ) ≠ ((H * W : ℕ) : ℤ) := by
        intro hc ; apply hcnt ; rw [hc] ; push_cast ; ring
      omega
    have hposr : 0 < mx - mn := by
      obtain ⟨y, hy⟩ := List.exists_mem_of_ne_nil _ hfne
      have h1 := hge y (mem_finiteVals.mp hy)
      have h2 := hle y (mem_finiteVals.mp hy)
      rcases lt_or_eq_of_le (le_trans h1 h2) with h | h
      · linarith
      · exact absurd (by rw [h] ; ring) hrange
    have hrow : histRowXY B H W (sliceVals data W H i) =
        (sliceVals data W H i).foldl (histStep B mn (mx - mn)) fun _ => 0 := by
      rw [histRowXY.eq_def, hmin, hmax]
      exact if_neg hrange
    rw [hrow, rowSum_foldl_histStep B hB mn (mx - mn) hposr _ _ hge, rowSum_zero]
    have hsplit := length_eq_countP_none_add_finite (sliceVals data W H i)
    rw [sliceVals_length data W H i] at hsplit
    rw [publishXY_nanC, runStats_nanCount]
    have : ((H * W : ℕ) : ℤ) = (H : ℤ) * W := by push_cast ; ring
    omega
  · intro hnan
    have heq : (runStats (sliceVals data W H i)).nanCount = (H : ℤ) * W := by
      rw [← publishXY_nanC H W (sliceVals data W H i)] ; exact hnan
    obtain ⟨h1, h2, _⟩ := publishXY_of_eq H W _ heq
    rw [histRowXY.eq_def, h1, h2]
  · intro mn mx hmin hmax hrange
    rw [histRowXY.eq_def, hmin, hmax]
    exact if_pos hrange

/-- Witness for C4 at a concrete 1×2 slice with values 0 and 1,
a single bin. -/
theorem histogram_conservation_witness :
    (∀ mn mx : ℚ,
      (publishXY 1 2 (sliceVals (fun n => [some 0, some 1].getD n none) 2 1 0)).minV = some mn →
      (publishXY 1 2 (sliceVals (fun n => [some 0, some 1].getD n none) 2 1 0)).maxV = some mx →
      mx - mn ≠ 0 →
      rowSum 1 (histRowXY 1 1 2 (sliceVals (fun n => [some 0, some 1].getD n none) 2 1 0)) =
        ((1 : ℕ) : ℤ) * (2 : ℕ) -
          (publishXY 1 2 (sliceVals (fun n => [some 0, some 1].getD n none) 2 1 0)).nanC) ∧
    ((publishXY 1 2 (sliceVals (fun n => [some 0, some 1].getD n none) 2 1 0)).nanC =
        ((1 : ℕ) : ℤ) * (2 : ℕ) →
      histRowXY 1 1 2 (sliceVals (fun n => [some 0, some 1].getD n none) 2 1 0) = fun _ => 0) ∧
    (∀ mn mx : ℚ,
      (publishXY 1 2 (sliceVals (fun n => [some 0, some 1].getD n none) 2 1 0)).minV = some mn →
      (publishXY 1 2 (sliceVals (fun n => [some 0, some 1].getD n none) 2 1 0)).maxV = some mx →
      mx - mn = 0 →
      histRowXY 1 1 2 (sliceVals (fun n => [some 0, some 1].getD n none) 2 1 0) = fun _ => 0) :=
  histogram_conservation (fun n => [some 0, some 1].getD n none) 2 1 0 1 (by decide)

theorem pubXYZ_minV (D H W : ℕ) (pub : ℕ → Pub) :
    (pubXYZ D H W pub).minV = (consolidateXYZ D H W pub).mn := rfl

theorem pubXYZ_maxV (D H W : ℕ) (pub : ℕ → Pub) :
    (pubXYZ D H W pub).maxV = (consolidateXYZ D H W pub).mx := rfl

theorem publishXY_none_of_meanV_none (H W : ℕ) (vals : List FV)
    (h : ((publishXY H W vals).meanV).isSome = false) :
    (publishXY H W vals).minV = none ∧ (publishXY H W vals).maxV = none := by
  have heq : (runStats vals).nanCount = (H : ℤ) * W := by
    by_contra hc
    rw [(publishXY_meanV_isSome H W vals).mpr hc] at h
    cases h
  obtain ⟨h1, h2, _⟩ := publishXY_of_eq H W vals heq
  exact ⟨h1, h2⟩

theorem publishXY_minV_some_of_meanV_some (H W : ℕ) (vals : List FV)
    (h : ((publishXY H W vals).meanV).isSome = true) :
    (publishXY H W vals).minV = some (runStats vals).minVal ∧
      (publishXY H W vals).maxV = some (runStats vals).maxVal := by
  have hne := (publishXY_meanV_isSome H W vals).mp h
  exact ⟨publishXY_minV_of_ne H W vals hne, publishXY_maxV_of_ne H W vals hne⟩

/-- C10.  Histogram bin-index bounds: for a finite pixel x of a slice
whose published min and max are finite with nonzero range, the XY bin
index min(B−1, trunc(B·(x−mn)/range)) lies in [0, B−1]; and the XYZ bin
index computed against the consolidated cube min and range also lies in
[0, B−1] - the cube min is at most the slice min and the cube range is
at least the slice range - so every histogram increment is in bounds. -/
theorem bin_index_in_bounds (data : ℕ → FV) (D H W i B : ℕ) (x mn mx : ℚ)
    (hB : 1 ≤ B) (hiD : i < D)
    (hx : some x ∈ sliceVals data W H i)
    (hmin : (publishXY H W (sliceVals data W H i)).minV = some mn)
    (hmax : (publishXY H W (sliceVals data W H i)).maxV = some mx)
    (hr : mx - mn ≠ 0) :
    (0 ≤ binIndex B mn (mx - mn) x ∧ binIndex B mn (mx - mn) x ≤ (B : ℤ) - 1) ∧
    (∀ cmn cmx : ℚ,
      (pubXYZ D H W fun z => publishXY H W (sliceVals data W H z)).minV = some cmn →
      (pubXYZ D H W fun z => publishXY H W (sliceVals data W H z)).maxV = some cmx →
      0 ≤ binIndex B cmn (cmx - cmn) x ∧ binIndex B cmn (cmx - cmn) x ≤ (B : ℤ) - 1) := by
  set pub : ℕ → Pub := fun z => publishXY H W (sliceVals data W H z) with hpub
  have hne : (runStats (sliceVals data W H i)).nanCount ≠ (H : ℤ) * W := by
    by_contra hc
    rw [(publishXY_of_eq H W _ hc).1] at hmin
    cases hmin
  have hmn : mn = (runStats (sliceVals data W H i)).minVal := by
    rw [publishXY_minV_of_ne H W _ hne] at hmin
    exact (Option.some.inj hmin).symm
  have hmx : mx = (runStats (sliceVals data W H i)).maxVal := by
    rw [publishXY_maxV_of_ne H W _ hne] at hmax
    exact (Option.some.inj hmax).symm
  have hgex : mn ≤ x := by
    rw [hmn, runStats_minVal]
    exact foldl_min_le _ _ x (mem_finiteVals.mpr hx)
  have hlex : x ≤ mx := by
    rw [hmx, runStats_maxVal]
    exact foldl_max_ge _ _ x (mem_finiteVals.mpr hx)
  have hposr : 0 < mx - mn := by
    rcases lt_or_eq_of_le (le_trans hgex hlex) with h | h
    · linarith
    · exact absurd (by rw [h] ; ring) hr
  refine ⟨binIndex_bounds B hB mn (mx - mn) x hgex hposr, ?_⟩
  intro cmn cmx hcmn hcmx
  -- the consolidated min and max as folds over the restricted slices
  have hD : 0 < D := lt_of_le_of_lt (Nat.zero_le i) hiD
  have h0 : ∀ z, ((pub z).meanV).isSome = false →
      (pub z).minV = none ∧ (pub z).maxV = none := fun z =>
    publishXY_none_of_meanV_none H W (sliceVals data W H z)
  have hm := consolidate_mn_fold D H W pub hD fun h => (h0 0 h).1
  have hxx := consolidate_mx_fold D H W pub hD fun h => (h0 0 h).2
  have himean : ((pub i).meanV).isSome = true := (publishXY_meanV_isSome H W _).mpr hne
  have hirestr : i ∈ (List.range D).filter fun z => ((pub z).meanV).isSome :=
    List.mem_filter.mpr ⟨List.mem_range.mpr hiD, himean⟩
  have hminsome : ∀ v ∈ ((List.range D).filter fun z => ((pub z).meanV).isSome).map
      (fun z => (pub z).minV), v ≠ none := by
    rintro v hv
    obtain ⟨z, hz, rfl⟩ := List.mem_map.mp hv
    rw [(publishXY_minV_some_of_meanV_some H W _ (List.mem_filter.mp hz).2).1]
    simp
  have hmaxsome : ∀ v ∈ ((List.range D).filter fun z => ((pub z).meanV).isSome).map
      (fun z => (pub z).maxV), v ≠ none := by
    rintro v hv
    obtain ⟨z, hz, rfl⟩ := List.mem_map.mp hv
    rw [(publishXY_minV_some_of_meanV_some H W _ (List.mem_filter.mp hz).2).2]
    simp
  have hne1 : ((List.range D).filter fun z => ((pub z).meanV).isSome).map
      (fun z => (pub z).minV) ≠ [] := by
    intro hc
    rw [List.map_eq_nil_iff] at hc
    rw [hc] at hirestr
    cases hirestr
  have hne2 : ((List.range D).filter fun z => ((pub z).meanV).isSome).map
      (fun z => (pub z).maxV) ≠ [] := by
    intro hc
    rw [List.map_eq_nil_iff] at hc
    rw [hc] at hirestr
    cases hirestr
  obtain ⟨c, hcfold, _, hcbnd⟩ := foldl_fmin_char _ hminsome hne1
  obtain ⟨c', hcfold', _, hcbnd'⟩ := foldl_fmax_char _ hmaxsome hne2
  have hc_eq : cmn = c := by
    rw [pubXYZ_minV, hm, hcfold] at hcmn
    exact (Option.some.inj hcmn).symm
  have hc'_eq : cmx = c' := by
    rw [pubXYZ_maxV, hxx, hcfold'] at hcmx
    exact (Option.some.inj hcmx).symm
  have hcmn_le : cmn ≤ mn := by
    rw [hc_eq]
    exact hcbnd mn (List.mem_map.mpr ⟨i, hirestr, hmin⟩)
  have hcmx_ge : mx ≤ cmx := by
    rw [hc'_eq]
    exact hcbnd' mx (List.mem_map.mpr ⟨i, hirestr, hmax⟩)
  exact binIndex_bounds B hB cmn (cmx - cmn) x (le_trans hcmn_le hgex) (by linarith)

/-- Witness for C10: a 2×1×2 cube, slice 0 = [0,1], slice 1 = [4,9],
pixel x = 1 of slice 0, a single bin. -/
theorem bin_index_in_bounds_witness :
    (0 ≤ binIndex 1 0 (1 - 0) 1 ∧ binIndex 1 0 (1 - 0) 1 ≤ ((1 : ℕ) : ℤ) - 1) ∧
    (∀ cmn cmx : ℚ,
      (pubXYZ 2 1 2 fun z =>
        publishXY 1 2 (sliceVals (fun n => [some 0, some 1, some 4, some 9].getD n none) 2 1 z)).minV = some cmn →
      (pubXYZ 2 1 2 fun z =>
        publishXY 1 2 (sliceVals (fun n => [some 0, some 1, some 4, some 9].getD n none) 2 1 z)).maxV = some cmx →
      0 ≤ binIndex 1 cmn (cmx - cmn) 1 ∧ binIndex 1 cmn (cmx - cmn) 1 ≤ ((1 : ℕ) : ℤ) - 1) :=
  bin_index_in_bounds (fun n => [some 0, some 1, some 4, some 9].getD n none) 2 1 2 0 1 1 0 1
    (by decide) (by decide) (by decide) (by decide) (by decide) (by simp)

/-! ## Accumulation precision (claim C8) -/

theorem qpow2P_eq (n : ℕ) : qpow2P n = 2 ^ n := by
  induction n with
  | zero => rfl
  | succ n ih => rw [qpow2P, ih, pow_succ] ; ring

theorem qpow2_eq (z : ℤ) : qpow2 z = (2 : ℚ) ^ z := by
  cases z with
  | ofNat n =>
    show qpow2P n = _
    rw [qpow2P_eq]
    exact (zpow_natCast (2 : ℚ) n).symm
  | negSucc n =>
    show 1 / qpow2P (n + 1) = _
    rw [qpow2P_eq, zpow_negSucc, one_div]

theorem exp2Down_eq (fuel : ℕ) : ∀ (q : ℚ) (e : ℕ), e ≤ fuel →
    (2 : ℚ) ^ e ≤ q → q < 2 ^ (e + 1) → exp2Down q fuel = e := by
  induction fuel with
  | zero =>
    intro q e he _ _
    interval_cases e
    rfl
  | succ n ih =>
    intro q e he h1 h2
    rw [exp2Down]
    cases e with
    | zero => rw [if_pos (by simpa using h2)]
    | succ e =>
      have h2le : (2 : ℚ) ≤ q := by
        calc (2 : ℚ) = 2 ^ 1 := (pow_one 2).symm
        _ ≤ 2 ^ (e + 1) := by
            apply pow_le_pow_right₀ (by norm_num)
            omega
        _ ≤ q := h1
      rw [if_neg (not_lt.mpr h2le)]
      have hdown : exp2Down (q / 2) n = e := by
        apply ih (q / 2) e (by omega)
        · rw [le_div_iff₀ (by norm_num : (0 : ℚ) < 2)]
          calc (2 : ℚ) ^ e * 2 = 2 ^ (e + 1) := by rw [pow_succ]
          _ ≤ q := h1
        · rw [div_lt_iff₀ (by norm_num : (0 : ℚ) < 2)]
          calc q < 2 ^ (e + 1 + 1) := h2
          _ = 2 ^ (e + 1) * 2 := by rw [pow_succ]
      rw [hdown]

theorem qexp_eval (q : ℚ) (e : ℕ) (he : e ≤ 200)
    (h1 : (2 : ℚ) ^ e ≤ q) (h2 : q < 2 ^ (e + 1)) : qexp q = e := by
  have h1q : (1 : ℚ) ≤ q := le_trans (one_le_pow₀ (by norm_num)) h1
  rw [qexp, if_pos h1q, exp2Down_eq 200 q e he h1 h2]

theorem fl_eval_exact (p : ℕ) (x s : ℚ) (e m : ℤ) (hx : x ≠ 0) (he : qexp |x| = e)
    (hs : (2 : ℚ) ^ (e - (p : ℤ) + 1) = s) (hs0 : s ≠ 0)
    (hm : x = (m : ℚ) * s) : fl p x = x := by
  rw [fl, if_neg hx, he, qpow2_eq, hs]
  have hdiv : x / s = (m : ℚ) := by rw [hm, mul_div_assoc, div_self hs0, mul_one]
  rw [hdiv, roundHalfEven, Int.floor_intCast]
  rw [if_pos (by rw [sub_self] ; norm_num : (m : ℚ) - (m : ℚ) < 1 / 2)]
  exact hm.symm

theorem fl_eval_down (p : ℕ) (x s : ℚ) (e f : ℤ) (hx : x ≠ 0) (he : qexp |x| = e)
    (hs : (2 : ℚ) ^ (e - (p : ℤ) + 1) = s)
    (hf : ⌊x / s⌋ = f) (hlt : x / s - (f : ℚ) < 1 / 2) :
    fl p x = (f : ℚ) * s := by
  rw [fl, if_neg hx, he, qpow2_eq, hs, roundHalfEven, hf, if_pos hlt]

theorem fl_eval_up (p : ℕ) (x s : ℚ) (e f : ℤ) (hx : x ≠ 0) (he : qexp |x| = e)
    (hs : (2 : ℚ) ^ (e - (p : ℤ) + 1) = s)
    (hf : ⌊x / s⌋ = f) (hgt : 1 / 2 < x / s - (f : ℚ)) :
    fl p x = ((f : ℚ) + 1) * s := by
  rw [fl, if_neg hx, he, qpow2_eq, hs, roundHalfEven, hf,
    if_neg (not_lt.mpr (le_of_lt hgt)), if_pos hgt]
  push_cast
  ring

theorem qexp_abs_33554432 : qexp |(33554432 : ℚ)| = 25 := by
  rw [show |(33554432 : ℚ)| = 33554432 by norm_num]
  exact_mod_cast qexp_eval 33554432 25 (by norm_num) (by norm_num) (by norm_num)

theorem qexp_abs_33554433 : qexp |(33554433 : ℚ)| = 25 := by
  rw [show |(33554433 : ℚ)| = 33554433 by norm_num]
  exact_mod_cast qexp_eval 33554433 25 (by norm_num) (by norm_num) (by norm_num)

theorem qexp_abs_33554434 : qexp |(33554434 : ℚ)| = 25 := by
  rw [show |(33554434 : ℚ)| = 33554434 by norm_num]
  exact_mod_cast qexp_eval 33554434 25 (by norm_num) (by norm_num) (by norm_num)

theorem qexp_abs_8388608 : qexp |(8388608 : ℚ)| = 23 := by
  rw [show |(8388608 : ℚ)| = 8388608 by norm_num]
  exact_mod_cast qexp_eval 8388608 23 (by norm_num) (by norm_num) (by norm_num)

theorem qexp_abs_mean35 : qexp |(33554435 : ℚ) / 4| = 23 := by
  rw [show |(33554435 : ℚ) / 4| = 33554435 / 4 by norm_num]
  exact_mod_cast qexp_eval (33554435 / 4) 23 (by norm_num) (by norm_num) (by norm_num)

/-- fl at 24 bits leaves 2^25 unchanged. -/
theorem fl24_33554432 : fl 24 (33554432 : ℚ) = 33554432 := by
  apply fl_eval_exact 24 _ 4 25 8388608 (by norm_num) qexp_abs_33554432 (by norm_num)
    (by norm_num) (by norm_num)

/-- fl at 24 bits rounds 2^25 + 1 back down to 2^25: the increment is
absorbed by a float accumulator. -/
theorem fl24_33554433 : fl 24 (33554433 : ℚ) = 33554432 := by
  have h := fl_eval_down 24 (33554433 : ℚ) 4 25 8388608 (by norm_num) qexp_abs_33554433
    (by norm_num) ?_ ?_
  · rw [h] ; norm_num
  · apply Int.floor_eq_iff.mpr
    constructor <;> norm_num
  · norm_num

/-- fl at 53 bits keeps 2^25 + 1 exactly: a double accumulator does not
absorb it. -/
theorem fl53_33554433 : fl 53 (33554433 : ℚ) = 33554433 := by
  apply fl_eval_exact 53 _ (1 / 134217728) 25 (33554433 * 134217728) (by norm_num)
    qexp_abs_33554433 ?_ (by norm_num) (by push_cast ; norm_num)
  rw [show (25 : ℤ) - (53 : ℕ) + 1 = -27 by norm_num]
  rw [show (-27 : ℤ) = Int.negSucc 26 by rfl]
  rw [zpow_negSucc]
  norm_num

theorem fl53_33554434 : fl 53 (33554434 : ℚ) = 33554434 := by
  apply fl_eval_exact 53 _ (1 / 134217728) 25 (33554434 * 134217728) (by norm_num)
    qexp_abs_33554434 ?_ (by norm_num) (by push_cast ; norm_num)
  rw [show (25 : ℤ) - (53 : ℕ) + 1 = -27 by norm_num]
  rw [show (-27 : ℤ) = Int.negSucc 26 by rfl]
  rw [zpow_negSucc]
  norm_num

theorem fl53_33554435 : fl 53 (33554435 : ℚ) = 33554435 := by
  apply fl_eval_exact 53 _ (1 / 134217728) 25 (33554435 * 134217728) (by norm_num)
    (by rw [show |(33554435 : ℚ)| = 33554435 by norm_num] ;
        exact_mod_cast qexp_eval 33554435 25 (by norm_num) (by norm_num) (by norm_num))
    ?_ (by norm_num) (by push_cast ; norm_num)
  rw [show (25 : ℤ) - (53 : ℕ) + 1 = -27 by norm_num]
  rw [show (-27 : ℤ) = Int.negSucc 26 by rfl]
  rw [zpow_negSucc]
  norm_num

/-- The FP32 mean of the float path: 2^25 / 4 = 2^23 is exact. -/
theorem fl24_mean32 : fl 24 (8388608 : ℚ) = 8388608 := by
  apply fl_eval_exact 24 _ 1 23 8388608 (by norm_num) qexp_abs_8388608 ?_ (by norm_num)
    (by norm_num)
  rw [show (23 : ℤ) - (24 : ℕ) + 1 = 0 by norm_num]
  norm_num

/-- The FP32 conversion of the double-accumulated mean: 33554435/4 =
8388608.75 rounds up to 8388609. -/
theorem fl24_mean35 : fl 24 ((33554435 : ℚ) / 4) = 8388609 := by
  have h := fl_eval_up 24 ((33554435 : ℚ) / 4) 1 23 8388608 (by norm_num) qexp_abs_mean35
    ?_ ?_ ?_
  · rw [h] ; norm_num
  · rw [show (23 : ℤ) - (24 : ℕ) + 1 = 0 by norm_num] ; norm_num
  · rw [div_one]
    apply Int.floor_eq_iff.mpr
    constructor <;> norm_num
  · rw [div_one] ; norm_num

theorem fl53_33554432 : fl 53 (33554432 : ℚ) = 33554432 := by
  apply fl_eval_exact 53 _ (1 / 134217728) 25 (33554432 * 134217728) (by norm_num)
    qexp_abs_33554432 ?_ (by norm_num) (by push_cast ; norm_num)
  rw [show (25 : ℤ) - (53 : ℕ) + 1 = -27 by norm_num]
  rw [show (-27 : ℤ) = Int.negSucc 26 by rfl]
  rw [zpow_negSucc]
  norm_num

/-- The float accumulation of the slice [2^25, 1, 1, 1]: every +1 is
absorbed, the sum stays 2^25. -/
theorem sliceSumF32_example :
    sliceSumF32 [some 33554432, some 1, some 1, some 1] = 33554432 := by
  simp only [sliceSumF32, List.foldl_cons, List.foldl_nil]
  rw [show (0 : ℚ) + 33554432 = 33554432 by norm_num, fl24_33554432,
    show (33554432 : ℚ) + 1 = 33554433 by norm_num, fl24_33554433,
    show (33554432 : ℚ) + 1 = 33554433 by norm_num, fl24_33554433,
    show (33554432 : ℚ) + 1 = 33554433 by norm_num, fl24_33554433]

/-- The double accumulation of the same slice keeps every +1. -/
theorem sliceSumF64_example :
    sliceSumF64 [some 33554432, some 1, some 1, some 1] = 33554435 := by
  simp only [sliceSumF64, List.foldl_cons, List.foldl_nil]
  rw [show (0 : ℚ) + 33554432 = 33554432 by norm_num, fl53_33554432,
    show (33554432 : ℚ) + 1 = 33554433 by norm_num, fl53_33554433,
    show (33554433 : ℚ) + 1 = 33554434 by norm_num, fl53_33554434,
    show (33554434 : ℚ) + 1 = 33554435 by norm_num, fl53_33554435]

theorem sliceMeanF32_example :
    sliceMeanF32 [some 33554432, some 1, some 1, some 1] 4 = 8388608 := by
  rw [sliceMeanF32, sliceSumF32_example,
    show (33554432 : ℚ) / ((4 : ℕ) : ℚ) = 8388608 by norm_num, fl24_mean32]

theorem sliceMeanClaim_example :
    sliceMeanClaim [some 33554432, some 1, some 1, some 1] 4 = 8388609 := by
  rw [sliceMeanClaim, sliceSumF64_example,
    show (33554435 : ℚ) / ((4 : ℕ) : ℚ) = 33554435 / 4 by norm_num, fl24_mean35]

/-- C8 counterexample: on the slice [2^25, 1, 1, 1] the float (24-bit)
accumulation the source performs differs from the double (53-bit)
accumulation the claim asserts, and the difference survives into the
published FP32 mean (8388608 vs 8388609): the per-slice sum is NOT
accumulated in double precision. -/
theorem slice_sum_precision_counterexample :
    sliceSumF32 [some 33554432, some 1, some 1, some 1] ≠
      sliceSumF64 [some 33554432, some 1, some 1, some 1] ∧
    sliceMeanF32 [some 33554432, some 1, some 1, some 1] 4 ≠
      sliceMeanClaim [some 33554432, some 1, some 1, some 1] 4 := by
  rw [sliceSumF32_example, sliceSumF64_example, sliceMeanF32_example, sliceMeanClaim_example]
  constructor <;> norm_num

/-- C8 amended: the per-slice sum is accumulated in single (FP32)
precision - each addition rounds to a 24-bit significand - and the mean
is published after a float division; on the slice [2^25, 1, 1, 1] this
yields sum 2^25 and mean 2^23, whereas double accumulation (the only
sum the source keeps in double is the cube-level xyzSum) would yield
2^25 + 3 and published FP32 mean 8388609. -/
theorem slice_sum_precision_amended :
    sliceSumF32 [some 33554432, some 1, some 1, some 1] = 33554432 ∧
    sliceSumF64 [some 33554432, some 1, some 1, some 1] = 33554435 ∧
    sliceMeanF32 [some 33554432, some 1, some 1, some 1] 4 = 8388608 ∧
    sliceMeanClaim [some 33554432, some 1, some 1, some 1] 4 = 8388609 :=
  ⟨sliceSumF32_example, sliceSumF64_example, sliceMeanF32_example, sliceMeanClaim_example⟩

/-! ## Claim C2: the NaN-count upper-bound implication, at the failing
input -/

/-- C2 at the failing input, a 2×1×1 cube of NaNs (D = 2, H·W = 1).
The Z-profile guard (src/main.cc 341) compares the profile NaN count,
which ranges over [0, D], against height·width, so the all-NaN profile
takes the finite branch and publishes minZ = FLT_MAX and
maxZ = −FLT_MAX instead of NaN (meanZ is NaN only by the accident of
0/0); and the all-NaN cube leaves MEAN_XYZ at its value-initialized 0.0
(src/main.cc 312-314 assigns it only when some value was finite)
instead of NaN.  MIN_XYZ and MAX_XYZ do publish NaN as the claim says. -/
theorem nan_upper_bound_code_bug :
    (publishZ 1 1 2 (profileVals (fun _ => none) 1 1 2 0 0)).nanC = 2 ∧
    (publishZ 1 1 2 (profileVals (fun _ => none) 1 1 2 0 0)).minV = some FMAX ∧
    (publishZ 1 1 2 (profileVals (fun _ => none) 1 1 2 0 0)).maxV = some (-FMAX) ∧
    (publishZ 1 1 2 (profileVals (fun _ => none) 1 1 2 0 0)).meanV = none ∧
    (pubXYZ 2 1 1 fun z => publishXY 1 1 (sliceVals (fun _ => none) 1 1 z)).nanC = 2 ∧
    (pubXYZ 2 1 1 fun z => publishXY 1 1 (sliceVals (fun _ => none) 1 1 z)).minV = none ∧
    (pubXYZ 2 1 1 fun z => publishXY 1 1 (sliceVals (fun _ => none) 1 1 z)).maxV = none ∧
    (pubXYZ 2 1 1 fun z => publishXY 1 1 (sliceVals (fun _ => none) 1 1 z)).meanV = some 0 := by
  decide

/-! ## Claim C9: output filename derivation, at the failing input -/

/-- C9 at the failing input "data.txt": the input does not end in
".fits", so the claim says the output is "data.txt.hdf5"; but
find_last_of(".fits") is a character-set search - the last character of
"data.txt" drawn from the set is the final letter t at index 7 - and
substr(0, 7 − 4) keeps only "dat", so the code derives "dat.hdf5".
For an input that does end in ".fits" the derivation happens to work. -/
theorem output_name_code_bug :
    deriveOutputName ("data.txt".toList) = "dat.hdf5".toList ∧
    deriveOutputName ("abc.fits".toList) = "abc.hdf5".toList := by
  decide

/-! ## Claim C7: error propagation -/

/-- C7 counterexample: an environment whose fits_read_pix leaves a
non-zero status.  The driver never tests the status word after the open
call, so the run performs the DATA write anyway and exits 0 - a failed
pixel read is silently ignored, contradicting the claim that any
non-zero status aborts the pipeline with exit code 1. -/
theorem error_propagation_counterexample :
    (runDriver ⟨2, 0, 0, 0, 0, 0, (fun _ => 0), (fun _ => 1), -32, 3, 0, 1, 2⟩).1 = 0 ∧
    (⟨2, 0, 0, 0, 0, 0, (fun _ => 0), (fun _ => 1), -32, 3, 0, 1, 2⟩ : Env).readPixStatus 0 ≠ 0 ∧
    Step.writeData 0 ∈
      (runDriver ⟨2, 0, 0, 0, 0, 0, (fun _ => 0), (fun _ => 1), -32, 3, 0, 1, 2⟩).2 := by
  decide

/-- C7 amended: only the status of fits_open_file is tested.  A failed
open aborts with exit code 1 before any output is created; once the
open has succeeded and the geometry checks pass, the run completes with
exit code 0 regardless of the statuses of every later FITS call. -/
theorem error_propagation_amended (e : Env) :
    (2 ≤ e.argc → e.argc ≤ 3 → e.openStatus ≠ 0 →
      runDriver e = (1, [Step.openInput])) ∧
    (2 ≤ e.argc → e.argc ≤ 3 → e.openStatus = 0 → e.bitpix = -32 →
      2 ≤ e.naxis → e.naxis ≤ 4 → (runDriver e).1 = 0) := by
  constructor
  · intro h1 h2 h3
    rw [runDriver, if_neg (by omega), if_pos h3]
  · intro h1 h2 h3 h4 h5 h6
    rw [runDriver, if_neg (by omega), if_neg (by simp [h3]), if_neg (by simp [h4]),
      if_neg (by omega)]

/-- Witness for C7 amended: one environment with a failed open, one
with a failed pixel read. -/
theorem error_propagation_amended_witness :
    runDriver ⟨2, 5, 0, 0, 0, 0, (fun _ => 0), (fun _ => 0), -32, 3, 0, 1, 2⟩ =
      (1, [Step.openInput]) ∧
    (runDriver ⟨2, 0, 0, 0, 0, 0, (fun _ => 0), (fun _ => 1), -32, 3, 0, 1, 2⟩).1 = 0 :=
  ⟨(error_propagation_amended ⟨2, 5, 0, 0, 0, 0, (fun _ => 0), (fun _ => 0), -32, 3, 0, 1, 2⟩).1
      (by decide) (by decide) (by decide),
    (error_propagation_amended ⟨2, 0, 0, 0, 0, 0, (fun _ => 0), (fun _ => 1), -32, 3, 0, 1, 2⟩).2
      (by decide) (by decide) (by decide) (by decide) (by decide) (by decide)⟩

/-! ## Claim C6: header translation -/

theorem lookupA_append (m₁ m₂ : List (List Char × List Char)) (n : List Char) :
    lookupA (m₁ ++ m₂) n = (lookupA m₁ n).or (lookupA m₂ n) := by
  induction m₁ with
  | nil => simp [lookupA]
  | cons p t ih =>
    by_cases hp : p.1 = n <;> simp [lookupA, hp, ih]

theorem lookupA_isSome_iff (m : List (List Char × List Char)) (n : List Char) :
    (lookupA m n).isSome = true ↔ n ∈ m.map Prod.fst := by
  induction m with
  | nil => simp [lookupA]
  | cons p t ih =>
    rw [lookupA]
    by_cases hp : p.1 = n
    · simp [hp]
    · rw [if_neg hp, List.map_cons, List.mem_cons, ih]
      constructor
      · exact Or.inr
      · rintro (h | h)
        · exact absurd h.symm hp
        · exact h

theorem addAttr_lookupA (m : List (List Char × List Char)) (kv : List Char × List Char)
    (n : List Char) :
    lookupA (addAttr m kv) n = (lookupA m n).or (if kv.1 = n then some kv.2 else none) := by
  rw [addAttr]
  by_cases hk : (lookupA m kv.1).isSome = true
  · rw [if_pos hk]
    by_cases hn : kv.1 = n
    · subst hn
      obtain ⟨v, hv⟩ := Option.isSome_iff_exists.mp hk
      rw [hv]
      rfl
    · rw [if_neg hn, Option.or_none]
  · rw [if_neg hk, lookupA_append]
    have hsingle : lookupA [kv] n = if kv.1 = n then some kv.2 else none := by
      by_cases hn : kv.1 = n <;> simp [lookupA, hn]
    rw [hsingle]

theorem addAttr_nodup (m : List (List Char × List Char)) (kv : List Char × List Char)
    (h : (m.map Prod.fst).Nodup) : ((addAttr m kv).map Prod.fst).Nodup := by
  rw [addAttr]
  by_cases hk : (lookupA m kv.1).isSome = true
  · rw [if_pos hk] ; exact h
  · rw [if_neg hk, List.map_append]
    rw [List.nodup_append]
    refine ⟨h, by simp, ?_⟩
    intro a ha hb
    simp at hb
    rw [hb] at ha
    exact hk ((lookupA_isSome_iff m kv.1).mpr ha)

theorem foldl_record_lookupA (recs : List (List Char)) :
    ∀ (m : List (List Char × List Char)) (n : List Char),
      lookupA (recs.foldl
        (fun m r =>
          match parseRecord r with
          | none => m
          | some nv => addAttr m nv) m) n =
      (lookupA m n).or (lookupA (recs.filterMap parseRecord) n) := by
  induction recs with
  | nil => intro m n ; simp [lookupA]
  | cons r recs ih =>
    intro m n
    rw [List.foldl_cons, List.filterMap_cons]
    cases hp : parseRecord r with
    | none => rw [ih]
    | some nv =>
      rw [ih, addAttr_lookupA]
      by_cases hn : nv.1 = n <;> cases hm : lookupA m n <;>
        simp [lookupA, hn, hm, Option.or]

theorem foldl_record_nodup (recs : List (List Char)) :
    ∀ m : List (List Char × List Char), (m.map Prod.fst).Nodup →
      ((recs.foldl
        (fun m r =>
          match parseRecord r with
          | none => m
          | some nv => addAttr m nv) m).map Prod.fst).Nodup := by
  induction recs with
  | nil => intro m h ; exact h
  | cons r recs ih =>
    intro m h
    cases hp : parseRecord r with
    | none =>
      simp only [List.foldl_cons, hp]
      exact ih m h
    | some nv =>
      simp only [List.foldl_cons, hp]
      exact ih _ (addAttr_nodup m nv h)

theorem initAttrs_nodup : (initAttrs.map Prod.fst).Nodup := by decide

/-- C6 counterexample.  Two concrete failures of the claim as stated:
(1) the record "A/B=C" has its last slash before the equals sign; the
text between the equals sign and the last slash is empty, but the code
publishes the value "C" (the size_t wraparound makes substr take the
whole tail); (2) the record "SCHEMA_VERSION = 9" yields NO attribute at
all, because the converter pre-creates an attribute of that name before
the header loop - not "exactly one string attribute" per eligible
record. -/
theorem header_translation_counterexample :
    parseRecord ("A/B=C".toList) = some ("A/B".toList, "C".toList) ∧
    firstIdxOf '=' ("A/B=C".toList) = some 3 ∧
    trim (claimRawValue ("A/B=C".toList) 3) = [] ∧
    processHeaders ["SCHEMA_VERSION = 9".toList] = initAttrs := by
  decide

/-- C6 amended.  Every header record parses per the claim with the slash
rule read as: the value ends at the last slash when that slash occurs
after the first equals sign, and at the record end otherwise; processing
appends each parsed record under its trimmed name unless the name is
already present (the three pre-created converter attributes included),
so the attribute names are unique and a lookup returns the pre-created
value when the name collides with a converter attribute, and otherwise
the value of the first record bearing that name. -/
theorem header_translation_amended :
    (∀ r : List Char, parseRecord r = claimParse r) ∧
    ∀ recs : List (List Char),
      ((processHeaders recs).map Prod.fst).Nodup ∧
      ∀ n : List Char, lookupA (processHeaders recs) n =
        (lookupA initAttrs n).or (lookupA (recs.filterMap parseRecord) n) := by
  constructor
  · intro r
    simp only [parseRecord, claimParse]
    by_cases h1 : (("COMMENT".toList).isPrefixOf r) = true
    · rw [if_pos h1, if_pos h1]
    · rw [if_neg h1, if_neg h1]
      by_cases h2 : (("HISTORY".toList).isPrefixOf r) = true
      · rw [if_pos h2, if_pos h2]
      · rw [if_neg h2, if_neg h2]
        cases he : firstIdxOf '=' r with
        | none => rfl
        | some eqPos =>
          simp only []
          cases hsl : lastIdxOf '/' r with
          | none => rfl
          | some c =>
            simp only []
            by_cases hc : eqPos + 1 ≤ c
            · rw [if_pos hc, if_pos hc, List.drop_take]
            · rw [if_neg hc, if_neg hc]
  · intro recs
    constructor
    · exact foldl_record_nodup recs initAttrs initAttrs_nodup
    · intro n
      exact foldl_record_lookupA recs initAttrs n

end Fits2Idia
